import Mathlib

/-!
Verification of the McCabe-Thiele stage-construction routine
(Distillation/Ideal_distillation/mccabe_thiele.py, function plot_mccabe_thiele)
against its natural-language specification.

Embedding conventions.
The Python function works on floating-point scalars; we embed the arithmetic
over the rationals.  The relative volatility alpha is computed in the source
from Antoine coefficients via 10 ** (a - b/(T+c)); that real-exponential part
is embedded separately over the reals (see P_vap, alpha_val below), and the
staircase core takes alpha as a rational parameter.

The source calls scipy.optimize.fsolve in four places:
  1. the feed-line / equilibrium-curve intersection (a genuinely nonlinear
     equation): its output is modelled as an oracle input xi_sol, used only
     in the q = 1 branch test, exactly as in the source;
  2. the rectifying-line / feed-line intersection for q = 1: likewise an
     oracle input xu_sol (the source bypasses the call when q = 1);
  3. and 4. the two solves of the affine equation
     (R/(1+R)) * x + (1/(1+R)) * xd = target inside the stepping loops
     (the stripping-to-rectifying transition and the rectifying horizontal
     step).  An affine equation has the unique closed-form root
     (target - (1/(1+R))*xd) / (R/(1+R)), which is what the root finder
     returns; we embed these two calls by that closed form (solve_rectifying).

The two indefinite while loops of the source are embedded as fuel-indexed
recursions; exhausting the fuel (the timeout result) represents a run of the
source that is still looping.  Division by zero follows the Lean convention
x / 0 = 0; each claim about divisions is treated explicitly.
-/

namespace MT

/-- Error outcomes of plot_mccabe_thiele: the two ValueError raises at the
feasibility check (lines 87-90 of the source).  The function contains no
other raise statement. -/
inductive MTError where
  | infeasibleXd : MTError
  | infeasibleXb : MTError
deriving DecidableEq, Repr

/-- Result of a run of plot_mccabe_thiele: an error, a still-running loop
(fuel exhausted), or normal completion carrying the two coordinate lists,
the number of stages and the reflux ratio (the returned values, line 179). -/
inductive MTResult where
  | err : MTError → MTResult
  | timeout : MTResult
  | ok : List ℚ → List ℚ → ℚ → ℚ → MTResult
deriving DecidableEq, Repr

/-- Equilibrium curve y = alpha*x / (1 + (alpha-1)*x), line 61 / 131 / 153. -/
def equilibrium (alpha x : ℚ) : ℚ := alpha * x / (1 + (alpha - 1) * x)

/-- Lines 80-83: the feed-line / equilibrium-curve intersection is xf when
q = 1, otherwise the value returned by the nonlinear root-find, modelled by
the oracle argument xi_sol. -/
def intersection_q_and_VLE (q xf xi_sol : ℚ) : ℚ := if q = 1 then xf else xi_sol

/-- Line 93: minimum_reflux = (xd/xi - alpha*((1-xd)/(1-xi))) / (alpha-1). -/
def minimum_reflux (alpha xd xi : ℚ) : ℚ :=
  (xd / xi - alpha * ((1 - xd) / (1 - xi))) / (alpha - 1)

/-- Line 99: the rectifying operating line
y = (R/(1+R)) * x + (1/(1+R)) * xd. -/
def rectifying_line (R xd x : ℚ) : ℚ := R / (1 + R) * x + 1 / (1 + R) * xd

/-- The root of the affine equation rectifying_line R xd x = t, which is what
the fsolve calls at lines 138 and 169 compute. -/
def solve_rectifying (R xd t : ℚ) : ℚ := (t - 1 / (1 + R) * xd) / (R / (1 + R))

/-- Lines 103-106: the upper breakpoint x-coordinate is xf when q = 1,
otherwise the value of the rectifying/feed-line root-find, modelled by the
oracle argument xu_sol. -/
def x_upper (q xf xu_sol : ℚ) : ℚ := if q = 1 then xf else xu_sol

/-- Line 109: stripping_slope = (y_upper - xb) / (x_upper - xb). -/
def stripping_slope (yu xu xb : ℚ) : ℚ := (yu - xb) / (xu - xb)

/-- Lines 128-148, the stripping-phase while loop.  State: the two
accumulated coordinate lists and the current x_start.  Each iteration
records the vertical (equilibrium) point; if it exceeds y_upper the loop
records the transition point on the rectifying line and stops, otherwise it
records the horizontal step back to the stripping line and continues. -/
def stripLoop (alpha yu slope b R xd : ℚ) :
    ℕ → List ℚ → List ℚ → ℚ → Option (List ℚ × List ℚ × ℚ)
  | 0, _, _, _ => none
  | fuel + 1, px, py, xs =>
    if yu < equilibrium alpha xs then
      some (px ++ [xs, solve_rectifying R xd (equilibrium alpha xs)],
            py ++ [equilibrium alpha xs, equilibrium alpha xs],
            solve_rectifying R xd (equilibrium alpha xs))
    else
      stripLoop alpha yu slope b R xd fuel
        (px ++ [xs, (equilibrium alpha xs - b) / slope])
        (py ++ [equilibrium alpha xs,
                slope * ((equilibrium alpha xs - b) / slope) + b])
        ((equilibrium alpha xs - b) / slope)

/-- Lines 150-171, the rectifying-phase while loop.  Each iteration records
the vertical (equilibrium) point; if it exceeds xd the loop pops that point,
clamps to (xd, xd) and stops, otherwise it steps horizontally back to the
rectifying line and continues. -/
def rectLoop (alpha R xd : ℚ) :
    ℕ → List ℚ → List ℚ → ℚ → Option (List ℚ × List ℚ)
  | 0, _, _, _ => none
  | fuel + 1, px, py, xs =>
    if xd < equilibrium alpha xs then
      some (px ++ [xs, xd], (py ++ [equilibrium alpha xs]).dropLast ++ [xd, xd])
    else
      rectLoop alpha R xd fuel
        (px ++ [xs, solve_rectifying R xd (equilibrium alpha xs)])
        (py ++ [equilibrium alpha xs, equilibrium alpha xs])
        (solve_rectifying R xd (equilibrium alpha xs))

/-- The computational core of plot_mccabe_thiele (lines 79-179 of the
source, with the plotting calls, which produce no returned data, omitted).
Arguments follow the source: alpha stands for the relative volatility
computed from the Antoine data (lines 52-56, embedded separately over ℝ),
then xd, xb, xf, q, reflux_factor; xi_sol and xu_sol are the two nonlinear
root-find oracles described at the top of the file; fuel bounds the two
indefinite loops. -/
def plot_mccabe_thiele (alpha xd xb xf q R_fac xi_sol xu_sol : ℚ)
    (fuel : ℕ) : MTResult :=
  let xi := intersection_q_and_VLE q xf xi_sol
  let yi := equilibrium alpha xi
  if xd < yi then .err .infeasibleXd
  else if xi < xb then .err .infeasibleXb
  else
    let R := minimum_reflux alpha xd xi * R_fac
    let xu := x_upper q xf xu_sol
    let yu := rectifying_line R xd xu
    let slope := stripping_slope yu xu xb
    let b := xb - slope * xb
    match stripLoop alpha yu slope b R xd fuel [xb] [xb] xb with
    | none => .timeout
    | some (px1, py1, xr) =>
      match rectLoop alpha R xd fuel px1 py1 xr with
      | none => .timeout
      | some (px2, py2) =>
        .ok px2 py2 (((px2.length : ℚ) - 1) / 2 - 1)
          (minimum_reflux alpha xd xi * R_fac)

/-! ### Basic facts about the equilibrium curve -/

theorem equilibrium_denom_pos {alpha x : ℚ} (ha : 1 < alpha) (hx : 0 ≤ x) :
    0 < 1 + (alpha - 1) * x := by nlinarith

theorem equilibrium_nonneg {alpha x : ℚ} (ha : 1 < alpha) (hx : 0 ≤ x) :
    0 ≤ equilibrium alpha x := by
  have hd := equilibrium_denom_pos ha hx
  have : 0 ≤ alpha * x := by nlinarith
  exact div_nonneg this hd.le

theorem equilibrium_zero (alpha : ℚ) : equilibrium alpha 0 = 0 := by
  simp [equilibrium]

theorem equilibrium_one {alpha : ℚ} (ha : 1 < alpha) : equilibrium alpha 1 = 1 := by
  have h2 : alpha ≠ 0 := by linarith
  unfold equilibrium
  rw [mul_one, show (1 : ℚ) + (alpha - 1) * 1 = alpha by ring]
  exact div_self h2

theorem equilibrium_strictMono {alpha x y : ℚ} (ha : 1 < alpha)
    (hx : 0 ≤ x) (hxy : x < y) :
    equilibrium alpha x < equilibrium alpha y := by
  have hdx := equilibrium_denom_pos ha hx
  have hdy := equilibrium_denom_pos ha (le_trans hx hxy.le)
  rw [equilibrium, equilibrium, div_lt_div_iff hdx hdy]
  nlinarith

theorem self_lt_equilibrium {alpha x : ℚ} (ha : 1 < alpha)
    (hx0 : 0 < x) (hx1 : x < 1) :
    x < equilibrium alpha x := by
  have hd := equilibrium_denom_pos ha hx0.le
  rw [equilibrium, lt_div_iff hd]
  nlinarith [mul_pos (mul_pos (sub_pos.2 ha) hx0) (sub_pos.2 hx1)]

/-! ### C7: shape of the equilibrium function -/

/-- C7.  For every alpha > 1 the equilibrium function
f(x) = alpha*x/(1+(alpha-1)x) used by plot_mccabe_thiele satisfies f(0) = 0,
f(1) = 1, and is strictly increasing on [0,1] (stated at an arbitrary
increasing pair x < y in [0,1]). -/
theorem C7_equilibrium_shape {alpha x y : ℚ} (ha : 1 < alpha)
    (hx : 0 ≤ x) (hxy : x < y) (hy : y ≤ 1) :
    equilibrium alpha 0 = 0 ∧ equilibrium alpha 1 = 1 ∧
      equilibrium alpha x < equilibrium alpha y :=
  ⟨equilibrium_zero alpha, equilibrium_one ha, equilibrium_strictMono ha hx hxy⟩

/-- Witness for C7 at alpha = 2, x = 0, y = 1. -/
theorem C7_witness :
    equilibrium 2 0 = 0 ∧ equilibrium 2 1 = 1 ∧ equilibrium 2 0 < equilibrium 2 1 :=
  C7_equilibrium_shape (by norm_num) (by norm_num) (by norm_num) (by norm_num)

/-! ### C8: q = 1 bypasses the rectifying/feed root-find -/

/-- C8.  When q = 1 the upper breakpoint is xf exactly, independently of the
root-find oracle output (so no root-find result is consulted), and likewise
the feed/equilibrium intersection is xf independently of its oracle; the
oracle value is consulted only when q is not 1. -/
theorem C8_q_one_bypasses_root_find (xf : ℚ) :
    (∀ s1 s2 : ℚ, x_upper 1 xf s1 = xf ∧ x_upper 1 xf s1 = x_upper 1 xf s2) ∧
    (∀ s1 s2 : ℚ, intersection_q_and_VLE 1 xf s1 = xf ∧
        intersection_q_and_VLE 1 xf s1 = intersection_q_and_VLE 1 xf s2) ∧
    (∀ q s : ℚ, q ≠ 1 → x_upper q xf s = s) := by
  refine ⟨fun s1 s2 => ?_, fun s1 s2 => ?_, fun q s hq => ?_⟩
  · simp [x_upper]
  · simp [intersection_q_and_VLE]
  · simp [x_upper, hq]

/-- Witness for C8: at q = 1 the breakpoint is xf = 1/2 whatever the oracle
value (here 5); at q = 0 the oracle value (here 7) is consulted. -/
theorem C8_witness :
    x_upper 1 (1/2) 5 = 1/2 ∧ x_upper 0 (1/2) 7 = 7 :=
  ⟨((C8_q_one_bypasses_root_find (1/2)).1 5 5).1,
    (C8_q_one_bypasses_root_find (1/2)).2.2 0 7 (by norm_num)⟩

/-! ### C2: the feasibility check is an exact error characterisation -/

/-- C2.  plot_mccabe_thiele raises an infeasible-design error (one of the two
ValueError raises, both placed before any stage stepping and carrying no
partial result) if and only if the feed/equilibrium intersection (xi, yi)
satisfies yi > xd or xi < xb. -/
theorem C2_error_iff_infeasible (alpha xd xb xf q R_fac xi_sol xu_sol : ℚ)
    (fuel : ℕ) :
    (∃ e, plot_mccabe_thiele alpha xd xb xf q R_fac xi_sol xu_sol fuel =
        .err e) ↔
      (xd < equilibrium alpha (intersection_q_and_VLE q xf xi_sol) ∨
        intersection_q_and_VLE q xf xi_sol < xb) := by
  unfold plot_mccabe_thiele
  by_cases h1 : xd < equilibrium alpha (intersection_q_and_VLE q xf xi_sol)
  · simp [h1]
  · by_cases h2 : intersection_q_and_VLE q xf xi_sol < xb
    · simp [h1, h2]
    · simp only [h1, h2, if_false, or_self, iff_false]
      rintro ⟨e, he⟩
      split at he
      · exact MTResult.noConfusion he
      · split at he
        · exact MTResult.noConfusion he
        · exact MTResult.noConfusion he

/-! ### C5: the reflux ratio returned is R_fac times the minimum reflux -/

/-- C5.  For every input passing the feasibility check, the minimum reflux
ratio is the expression (xd/xi - alpha*(1-xd)/(1-xi))/(alpha-1) at the
feed/equilibrium intersection abscissa xi, and whenever the run completes,
the returned reflux ratio is R_fac times that minimum. -/
theorem C5_reflux_ratio (alpha xd xb xf q R_fac xi_sol xu_sol : ℚ)
    (fuel : ℕ) (px py : List ℚ) (n R : ℚ)
    (hok : plot_mccabe_thiele alpha xd xb xf q R_fac xi_sol xu_sol fuel =
      .ok px py n R) :
    R = (xd / intersection_q_and_VLE q xf xi_sol -
          alpha * ((1 - xd) / (1 - intersection_q_and_VLE q xf xi_sol))) /
        (alpha - 1) * R_fac := by
  unfold plot_mccabe_thiele at hok
  by_cases h1 : xd < equilibrium alpha (intersection_q_and_VLE q xf xi_sol)
  · simp [h1] at hok
  · by_cases h2 : intersection_q_and_VLE q xf xi_sol < xb
    · simp [h1, h2] at hok
    · simp only [h1, h2, if_false] at hok
      split at hok
      · exact MTResult.noConfusion hok
      · split at hok
        · exact MTResult.noConfusion hok
        · rw [MTResult.ok.injEq] at hok
          rw [← hok.2.2.2, minimum_reflux]

/-! ### List-length bookkeeping of the two loops -/

/-- Each iteration of the stripping loop appends exactly two points to each
coordinate list (one vertical equilibrium point plus either the transition
point or the horizontal step). -/
theorem stripLoop_length (alpha yu slope b R xd : ℚ) :
    ∀ (fuel : ℕ) (px py : List ℚ) (xs : ℚ) (px1 py1 : List ℚ) (xr : ℚ),
      stripLoop alpha yu slope b R xd fuel px py xs = some (px1, py1, xr) →
      ∃ c : ℕ, 1 ≤ c ∧ px1.length = px.length + 2 * c ∧
        py1.length = py.length + 2 * c := by
  intro fuel
  induction fuel with
  | zero => intro px py xs px1 py1 xr h; exact Option.noConfusion h
  | succ n ih =>
    intro px py xs px1 py1 xr h
    rw [stripLoop] at h
    split at h
    · simp only [Option.some.injEq, Prod.mk.injEq] at h
      obtain ⟨hpx, hpy, -⟩ := h
      refine ⟨1, le_refl 1, ?_, ?_⟩
      · rw [← hpx, List.length_append]; rfl
      · rw [← hpy, List.length_append]; rfl
    · obtain ⟨c, hc1, hc2, hc3⟩ := ih _ _ _ _ _ _ h
      simp only [List.length_append, List.length_cons, List.length_nil] at hc2 hc3
      exact ⟨c + 1, by omega, by omega, by omega⟩

/-- Each iteration of the rectifying loop appends exactly two points to each
coordinate list (the pop at the final iteration cancels against one of the
three appends there). -/
theorem rectLoop_length (alpha R xd : ℚ) :
    ∀ (fuel : ℕ) (px py : List ℚ) (xs : ℚ) (px1 py1 : List ℚ),
      rectLoop alpha R xd fuel px py xs = some (px1, py1) →
      ∃ c : ℕ, 1 ≤ c ∧ px1.length = px.length + 2 * c ∧
        py1.length = py.length + 2 * c := by
  intro fuel
  induction fuel with
  | zero => intro px py xs px1 py1 h; exact Option.noConfusion h
  | succ n ih =>
    intro px py xs px1 py1 h
    rw [rectLoop] at h
    split at h
    · simp only [Option.some.injEq, Prod.mk.injEq] at h
      obtain ⟨hpx, hpy⟩ := h
      refine ⟨1, le_refl 1, ?_, ?_⟩
      · rw [← hpx, List.length_append]; rfl
      · rw [← hpy, List.dropLast_concat, List.length_append]; rfl
    · obtain ⟨c, hc1, hc2, hc3⟩ := ih _ _ _ _ _ h
      simp only [List.length_append, List.length_cons, List.length_nil] at hc2 hc3
      exact ⟨c + 1, by omega, by omega, by omega⟩

/-- Inversion of a completed run: it passed both feasibility tests and both
loops returned, with the returned quantities determined by the loop
outputs. -/
theorem plot_ok_inversion (alpha xd xb xf q R_fac xi_sol xu_sol : ℚ)
    (fuel : ℕ) (px py : List ℚ) (n R : ℚ)
    (hok : plot_mccabe_thiele alpha xd xb xf q R_fac xi_sol xu_sol fuel =
      .ok px py n R) :
    ∃ px1 py1 xr,
      stripLoop alpha
          (rectifying_line
            (minimum_reflux alpha xd (intersection_q_and_VLE q xf xi_sol) * R_fac)
            xd (x_upper q xf xu_sol))
          (stripping_slope
            (rectifying_line
              (minimum_reflux alpha xd (intersection_q_and_VLE q xf xi_sol) * R_fac)
              xd (x_upper q xf xu_sol))
            (x_upper q xf xu_sol) xb)
          (xb - stripping_slope
              (rectifying_line
                (minimum_reflux alpha xd (intersection_q_and_VLE q xf xi_sol) * R_fac)
                xd (x_upper q xf xu_sol))
              (x_upper q xf xu_sol) xb * xb)
          (minimum_reflux alpha xd (intersection_q_and_VLE q xf xi_sol) * R_fac)
          xd fuel [xb] [xb] xb = some (px1, py1, xr) ∧
      rectLoop alpha
          (minimum_reflux alpha xd (intersection_q_and_VLE q xf xi_sol) * R_fac)
          xd fuel px1 py1 xr = some (px, py) ∧
      n = ((px.length : ℚ) - 1) / 2 - 1 ∧
      R = minimum_reflux alpha xd (intersection_q_and_VLE q xf xi_sol) * R_fac := by
  unfold plot_mccabe_thiele at hok
  by_cases h1 : xd < equilibrium alpha (intersection_q_and_VLE q xf xi_sol)
  · simp [h1] at hok
  · by_cases h2 : intersection_q_and_VLE q xf xi_sol < xb
    · simp [h1, h2] at hok
    · simp only [h1, h2, if_false] at hok
      split at hok
      · exact MTResult.noConfusion hok
      · split at hok
        · exact MTResult.noConfusion hok
        · rw [MTResult.ok.injEq] at hok
          obtain ⟨hpx, hpy, hn, hR⟩ := hok
          subst hpx; subst hpy
          exact ⟨_, _, _, by assumption, by assumption, hn.symm, hR.symm⟩

/-- On a completed run, the coordinate lists have equal, odd length
1 + 2k with k at least 2 (one stripping plus one rectifying iteration at
minimum), and the stage count is k - 1. -/
theorem run_length_odd (alpha xd xb xf q R_fac xi_sol xu_sol : ℚ)
    (fuel : ℕ) (px py : List ℚ) (n R : ℚ)
    (hok : plot_mccabe_thiele alpha xd xb xf q R_fac xi_sol xu_sol fuel =
      .ok px py n R) :
    px.length = py.length ∧ (∃ k : ℕ, 2 ≤ k ∧ px.length = 2 * k + 1) ∧
      n = ((px.length : ℚ) - 1) / 2 - 1 := by
  obtain ⟨px1, py1, xr, hs, hr, hn, -⟩ :=
    plot_ok_inversion alpha xd xb xf q R_fac xi_sol xu_sol fuel px py n R hok
  obtain ⟨c, hc1, hc2, hc3⟩ := stripLoop_length _ _ _ _ _ _ _ _ _ _ _ _ _ hs
  obtain ⟨d, hd1, hd2, hd3⟩ := rectLoop_length _ _ _ _ _ _ _ _ _ hr
  simp only [List.length_singleton] at hc2 hc3
  refine ⟨by omega, ⟨c + d, by omega, by omega⟩, hn⟩

/-! ### C1: the stage-count formula -/

/-- C1.  On every run that completes without an error, the returned
number_of_stages equals (length of the stage sequence - 1)/2 - 1 and that
value is a non-negative integer (a natural number cast to ℚ; the division
is the exact rational counterpart of the floating division of line 174). -/
theorem C1_stage_count (alpha xd xb xf q R_fac xi_sol xu_sol : ℚ)
    (fuel : ℕ) (px py : List ℚ) (n R : ℚ)
    (hok : plot_mccabe_thiele alpha xd xb xf q R_fac xi_sol xu_sol fuel =
      .ok px py n R) :
    n = ((px.length : ℚ) - 1) / 2 - 1 ∧ ∃ k : ℕ, n = (k : ℚ) := by
  obtain ⟨heq, ⟨k, hk2, hklen⟩, hn⟩ :=
    run_length_odd alpha xd xb xf q R_fac xi_sol xu_sol fuel px py n R hok
  refine ⟨hn, k - 1, ?_⟩
  rw [hn, hklen]
  have hcast : ((2 * k + 1 : ℕ) : ℚ) = 2 * (k : ℚ) + 1 := by push_cast; ring
  have hk1 : ((k - 1 : ℕ) : ℚ) = (k : ℚ) - 1 := by
    have : (1 : ℕ) ≤ k := by omega
    push_cast [this]; ring
  rw [hcast, hk1]
  ring

/-! ### C9: list bookkeeping invariants of the stepping loops -/

/-- C9.  At every iteration boundary of both loops the two coordinate lists
have equal length (first two conjuncts: each loop preserves equality of
lengths); on a completed run both lists have odd length 2k + 1, where k is
the number of vertical equilibrium steps recorded (each loop iteration
records exactly one equilibrium point, and contributes exactly two list
entries), so the stage count expression (len - 1)/2 - 1 is the whole number
k - 1. -/
theorem C9_seesaw_length_invariant :
    (∀ (alpha yu slope b R xd : ℚ) (fuel : ℕ) (px py : List ℚ) (xs : ℚ)
        (px1 py1 : List ℚ) (xr : ℚ),
        px.length = py.length →
        stripLoop alpha yu slope b R xd fuel px py xs = some (px1, py1, xr) →
        px1.length = py1.length) ∧
    (∀ (alpha R xd : ℚ) (fuel : ℕ) (px py : List ℚ) (xs : ℚ)
        (px1 py1 : List ℚ),
        px.length = py.length →
        rectLoop alpha R xd fuel px py xs = some (px1, py1) →
        px1.length = py1.length) ∧
    (∀ (alpha xd xb xf q R_fac xi_sol xu_sol : ℚ) (fuel : ℕ)
        (px py : List ℚ) (n R : ℚ),
        plot_mccabe_thiele alpha xd xb xf q R_fac xi_sol xu_sol fuel =
          .ok px py n R →
        px.length = py.length ∧
        ∃ k : ℕ, 2 ≤ k ∧ px.length = 2 * k + 1 ∧ py.length = 2 * k + 1 ∧
          ((px.length : ℚ) - 1) / 2 - 1 = (k : ℚ) - 1) := by
  refine ⟨?_, ?_, ?_⟩
  · intro alpha yu slope b R xd fuel px py xs px1 py1 xr hlen h
    obtain ⟨c, -, hc2, hc3⟩ := stripLoop_length _ _ _ _ _ _ _ _ _ _ _ _ _ h
    omega
  · intro alpha R xd fuel px py xs px1 py1 hlen h
    obtain ⟨c, -, hc2, hc3⟩ := rectLoop_length _ _ _ _ _ _ _ _ _ h
    omega
  · intro alpha xd xb xf q R_fac xi_sol xu_sol fuel px py n R hok
    obtain ⟨hlen, ⟨k, hk2, hklen⟩, -⟩ :=
      run_length_odd alpha xd xb xf q R_fac xi_sol xu_sol fuel px py n R hok
    refine ⟨hlen, k, hk2, hklen, by omega, ?_⟩
    rw [hklen]
    have hcast : ((2 * k + 1 : ℕ) : ℚ) = 2 * (k : ℚ) + 1 := by push_cast; ring
    rw [hcast]
    ring

/-! ### A fully evaluated concrete run, shared by several witnesses -/

/-- The x-coordinates produced by the run with alpha = 2, xd = 3/4,
xb = 1/4, xf = 1/2, q = 1, reflux_factor = 3. -/
def witnessPX : List ℚ :=
  [1/4, 1/4, 5/14, 5/14, 17/38, 17/38, 35/66, 35/66, 397/606, 397/606, 3/4]

/-- The y-coordinates of the same run. -/
def witnessPY : List ℚ :=
  [1/4, 2/5, 2/5, 10/19, 10/19, 34/55, 34/55, 70/101, 70/101, 3/4, 3/4]

set_option maxHeartbeats 2000000 in
/-- Full evaluation of one feasible run of the embedded function. -/
theorem witness_run_eq :
    plot_mccabe_thiele 2 (3/4) (1/4) (1/2) 1 3 0 0 10 =
      .ok witnessPX witnessPY 4 (3/2) := by
  norm_num [plot_mccabe_thiele, stripLoop, rectLoop, equilibrium,
    intersection_q_and_VLE, minimum_reflux, rectifying_line, solve_rectifying,
    x_upper, stripping_slope, List.dropLast_concat, witnessPX, witnessPY]

/-- Witness for C1 on the concrete run. -/
theorem C1_witness :
    (4 : ℚ) = ((witnessPX.length : ℚ) - 1) / 2 - 1 ∧ ∃ k : ℕ, (4 : ℚ) = (k : ℚ) :=
  C1_stage_count 2 (3/4) (1/4) (1/2) 1 3 0 0 10 witnessPX witnessPY 4 (3/2)
    witness_run_eq

/-- Witness for C9 on the concrete run. -/
theorem C9_witness :
    witnessPX.length = witnessPY.length ∧
    ∃ k : ℕ, 2 ≤ k ∧ witnessPX.length = 2 * k + 1 ∧
      witnessPY.length = 2 * k + 1 ∧
      ((witnessPX.length : ℚ) - 1) / 2 - 1 = (k : ℚ) - 1 :=
  C9_seesaw_length_invariant.2.2 2 (3/4) (1/4) (1/2) 1 3 0 0 10
    witnessPX witnessPY 4 (3/2) witness_run_eq

/-- Witness for C5 on the concrete run. -/
theorem C5_witness :
    (3/2 : ℚ) = ((3/4 : ℚ) / intersection_q_and_VLE 1 (1/2) 0 -
        2 * ((1 - 3/4) / (1 - intersection_q_and_VLE 1 (1/2) 0))) / (2 - 1) * 3 :=
  C5_reflux_ratio 2 (3/4) (1/4) (1/2) 1 3 0 0 10 witnessPX witnessPY 4 (3/2)
    witness_run_eq

/-! ### The Antoine part of the function, over the reals (lines 52-56) -/

/-- Line 53: P_vap = [10 ** (a - b/(T+c)) for (a,b,c) in antoine]. -/
noncomputable def P_vap (antoine : List (ℝ × ℝ × ℝ)) (T : ℝ) : List ℝ :=
  antoine.map fun i => (10 : ℝ) ^ (i.1 - i.2.1 / (T + i.2.2))

/-- The maximum of a nonempty list, as computed by the Python max builtin. -/
noncomputable def listMax : List ℝ → ℝ
  | [] => 0
  | x :: xs => xs.foldl max x

/-- The minimum of a nonempty list, as computed by the Python min builtin. -/
noncomputable def listMin : List ℝ → ℝ
  | [] => 0
  | x :: xs => xs.foldl min x

/-- Line 56: alpha = max(P_vap) / min(P_vap). -/
noncomputable def alpha_val (antoine : List (ℝ × ℝ × ℝ)) (T : ℝ) : ℝ :=
  listMax (P_vap antoine T) / listMin (P_vap antoine T)

theorem foldl_max_mono (l : List ℝ) :
    ∀ {a b : ℝ}, a ≤ b → l.foldl max a ≤ l.foldl max b := by
  induction l with
  | nil => intro a b h; exact h
  | cons x xs ih => intro a b h; exact ih (max_le_max h (le_refl x))

theorem foldl_min_le_foldl_max (l : List ℝ) :
    ∀ a : ℝ, l.foldl min a ≤ l.foldl max a := by
  induction l with
  | nil => intro a; exact le_refl a
  | cons x xs ih =>
    intro a
    exact le_trans (ih (min a x))
      (foldl_max_mono xs (le_trans (min_le_left a x) (le_max_left a x)))

theorem foldl_min_pos (l : List ℝ) :
    ∀ {a : ℝ}, 0 < a → (∀ p ∈ l, 0 < p) → 0 < l.foldl min a := by
  induction l with
  | nil => intro a h _; exact h
  | cons x xs ih =>
    intro a ha hl
    exact ih (lt_min ha (hl x (List.mem_cons_self x xs)))
      fun p hp => hl p (List.mem_cons_of_mem x hp)

theorem P_vap_pos (antoine : List (ℝ × ℝ × ℝ)) (T : ℝ) :
    ∀ p ∈ P_vap antoine T, 0 < p := by
  intro p hp
  simp only [P_vap, List.mem_map] at hp
  obtain ⟨i, -, rfl⟩ := hp
  exact Real.rpow_pos_of_pos (by norm_num) _

theorem listMin_P_vap_pos (antoine : List (ℝ × ℝ × ℝ)) (T : ℝ)
    (h : antoine ≠ []) : 0 < listMin (P_vap antoine T) := by
  have hpos := P_vap_pos antoine T
  rcases hl : P_vap antoine T with _ | ⟨x, xs⟩
  · exact absurd (List.map_eq_nil.mp hl) h
  · rw [hl] at hpos
    exact foldl_min_pos xs (hpos x (List.mem_cons_self x xs))
      fun p hp => hpos p (List.mem_cons_of_mem x hp)

theorem one_le_alpha_val (antoine : List (ℝ × ℝ × ℝ)) (T : ℝ)
    (h : antoine ≠ []) : 1 ≤ alpha_val antoine T := by
  have hmin := listMin_P_vap_pos antoine T h
  rw [alpha_val, le_div_iff hmin, one_mul]
  rcases hl : P_vap antoine T with _ | ⟨x, xs⟩
  · exact absurd (List.map_eq_nil.mp hl) h
  · simp only [hl] at hmin ⊢
    exact foldl_min_le_foldl_max xs x

/-! ### C4: there is no invalid-input validation in the code -/

/-- Shared evaluation: ordering-violating input still runs and raises the
infeasible-xb ValueError, not an invalid-input one. -/
theorem infeasible_run_eq :
    plot_mccabe_thiele 2 (9/10) (3/5) (1/2) 1 (11/10) 0 0 5 =
      .err .infeasibleXb := by
  norm_num [plot_mccabe_thiele, equilibrium, intersection_q_and_VLE]

/-- Counterexample to C4.  The input xb = 3/5, xf = 1/2 violates the
required ordering xb < xf < xd, yet the function does not fail with an
invalid-input error: the only failure it can produce is one of the two
infeasible-design ValueError raises of the feasibility check, and on this
input it raises the infeasible-xb one.  (The source, lines 52-56, computes
the vapor pressures and alpha without any validation; no invalid-input
check exists anywhere in the function.) -/
theorem C4_counterexample :
    ¬ ((3 : ℚ)/5 < 1/2) ∧
    plot_mccabe_thiele 2 (9/10) (3/5) (1/2) 1 (11/10) 0 0 5 =
      .err .infeasibleXb :=
  ⟨by norm_num, infeasible_run_eq⟩

/-- Amended C4.  The function performs no invalid-input validation, and the
conditions the specification lists are in fact unsatisfiable or unchecked:
every computed vapor pressure 10 ** (a - b/(T+c)) is strictly positive and
alpha = max(P_vap)/min(P_vap) is at least 1 for every nonempty Antoine list,
so the P_vap <= 0 and alpha < 1 triggers can never fire; and the only
errors the function can raise are the two infeasible-design ones. -/
theorem C4_amended :
    (∀ (antoine : List (ℝ × ℝ × ℝ)) (T : ℝ), antoine ≠ [] →
        (∀ t ∈ antoine, T + t.2.2 ≠ 0) →
        (∀ p ∈ P_vap antoine T, 0 < p) ∧ 1 ≤ alpha_val antoine T) ∧
    (∀ (alpha xd xb xf q R_fac xi_sol xu_sol : ℚ) (fuel : ℕ) (e : MTError),
        plot_mccabe_thiele alpha xd xb xf q R_fac xi_sol xu_sol fuel = .err e →
        e = .infeasibleXd ∨ e = .infeasibleXb) := by
  constructor
  · intro antoine T hne _
    exact ⟨P_vap_pos antoine T, one_le_alpha_val antoine T hne⟩
  · intro alpha xd xb xf q R_fac xi_sol xu_sol fuel e _
    cases e
    · exact Or.inl rfl
    · exact Or.inr rfl

/-- Witness for C4_amended: a concrete Antoine list (and the concrete
error run of the counterexample input). -/
theorem C4_witness :
    ((∀ p ∈ P_vap [((1 : ℝ), (2 : ℝ), (1 : ℝ))] 1, 0 < p) ∧
      1 ≤ alpha_val [((1 : ℝ), (2 : ℝ), (1 : ℝ))] 1) ∧
    (MTError.infeasibleXb = .infeasibleXd ∨ MTError.infeasibleXb = .infeasibleXb) :=
  ⟨C4_amended.1 [((1 : ℝ), (2 : ℝ), (1 : ℝ))] 1 (by simp)
      (by intro t ht; simp only [List.mem_singleton] at ht; subst ht; norm_num),
    C4_amended.2 2 (9/10) (3/5) (1/2) 1 (11/10) 0 0 5 .infeasibleXb
      infeasible_run_eq⟩

/-! ### C10: division safety -/

/-- The minimum reflux is non-negative whenever the feasibility check passes
with 0 < xi < 1 and alpha > 1. -/
theorem minimum_reflux_nonneg {alpha xd xi : ℚ} (ha : 1 < alpha)
    (hxi0 : 0 < xi) (hxi1 : xi < 1) (hfeas : equilibrium alpha xi ≤ xd) :
    0 ≤ minimum_reflux alpha xd xi := by
  have hd := equilibrium_denom_pos ha hxi0.le
  have h1 : alpha * xi ≤ xd * (1 + (alpha - 1) * xi) := by
    rw [equilibrium, div_le_iff hd] at hfeas
    linarith
  have hxine : xi ≠ 0 := ne_of_gt hxi0
  have hxi1ne : 1 - xi ≠ 0 := ne_of_gt (by linarith)
  have hnum : 0 ≤ xd / xi - alpha * ((1 - xd) / (1 - xi)) := by
    have he : xd / xi - alpha * ((1 - xd) / (1 - xi)) =
        (xd * (1 + (alpha - 1) * xi) - alpha * xi) / (xi * (1 - xi)) := by
      field_simp
      ring
    rw [he]
    apply div_nonneg (by linarith)
    exact (mul_pos hxi0 (by linarith)).le
  exact div_nonneg hnum (by linarith)

/-- Counterexample to C10.  All the preconditions the claim lists hold at
this input (alpha = 2, xd = 9/10, xb = 1/10, xf = 1/2, q = 1, feasibility
passing, xi < 1, x_upper different from xb), yet with the reflux factor
R_fac = -5/7 the reflux ratio is exactly -1, so the divisions by
(1 + reflux_ratio) at lines 99, 106 and 108 are divisions by zero and are
performed (they precede the stepping loops).  Nothing in the listed
preconditions constrains R_fac. -/
theorem C10_counterexample :
    (1 : ℚ) < 2 ∧ (0 : ℚ) < 1/10 ∧ (1/10 : ℚ) < 1/2 ∧ (1/2 : ℚ) < 9/10 ∧
    (9/10 : ℚ) < 1 ∧
    ¬ ((9 : ℚ)/10 < equilibrium 2 (intersection_q_and_VLE 1 (1/2) 0)) ∧
    ¬ (intersection_q_and_VLE 1 (1/2) 0 < 1/10) ∧
    intersection_q_and_VLE 1 (1/2) 0 < 1 ∧
    x_upper 1 (1/2) 0 - 1/10 ≠ 0 ∧
    1 + minimum_reflux 2 (9/10) (intersection_q_and_VLE 1 (1/2) 0) * (-5/7) = 0 := by
  norm_num [equilibrium, intersection_q_and_VLE, x_upper, minimum_reflux]

/-- Amended C10.  With the additional hypothesis R_fac > 0 (which the
counterexample shows is necessary), the divisions the claim enumerates are
by nonzero values: the feed-line divisions by (1 - q) occur only in the
q = 1 branches (both oracles are bypassed at q = 1), alpha - 1, xi and
1 - xi are nonzero, 1 + reflux_ratio is positive, x_upper - xb is nonzero
by hypothesis, the Antoine divisions are by the hypothesised nonzero T + c
and by min(P_vap) > 0, and the division by stripping_slope at line 145 is
performed only when the slope is nonzero: if the slope is zero then
y_upper = xb lies strictly below the first equilibrium value, so the very
first stripping iteration takes the transition branch and the loop never
reaches the horizontal step. -/
theorem C10_amended :
    (∀ (antoine : List (ℝ × ℝ × ℝ)) (T : ℝ), antoine ≠ [] →
        (∀ t ∈ antoine, T + t.2.2 ≠ 0) → 0 < listMin (P_vap antoine T)) ∧
    (∀ alpha xd xb xf q R_fac xi_sol xu_sol : ℚ,
        1 < alpha → 0 < xb → xb < xf → xf < xd → xd < 1 →
        ¬ (xd < equilibrium alpha (intersection_q_and_VLE q xf xi_sol)) →
        ¬ (intersection_q_and_VLE q xf xi_sol < xb) →
        intersection_q_and_VLE q xf xi_sol < 1 →
        x_upper q xf xu_sol - xb ≠ 0 →
        0 < R_fac →
        alpha - 1 ≠ 0 ∧
        intersection_q_and_VLE q xf xi_sol ≠ 0 ∧
        1 - intersection_q_and_VLE q xf xi_sol ≠ 0 ∧
        0 < 1 + minimum_reflux alpha xd (intersection_q_and_VLE q xf xi_sol) * R_fac ∧
        (q = 1 → x_upper q xf xu_sol = xf ∧
          intersection_q_and_VLE q xf xi_sol = xf) ∧
        (stripping_slope
            (rectifying_line
              (minimum_reflux alpha xd (intersection_q_and_VLE q xf xi_sol) * R_fac)
              xd (x_upper q xf xu_sol))
            (x_upper q xf xu_sol) xb = 0 →
          rectifying_line
              (minimum_reflux alpha xd (intersection_q_and_VLE q xf xi_sol) * R_fac)
              xd (x_upper q xf xu_sol) < equilibrium alpha xb)) := by
  constructor
  · intro antoine T hne _
    exact listMin_P_vap_pos antoine T hne
  · intro alpha xd xb xf q R_fac xi_sol xu_sol ha hxb hbf hfd hd1 hf1 hf2 hxi1 hxu hRf
    have hxi0 : 0 < intersection_q_and_VLE q xf xi_sol := lt_of_lt_of_le hxb (not_lt.mp hf2)
    have hrmin : 0 ≤ minimum_reflux alpha xd (intersection_q_and_VLE q xf xi_sol) :=
      minimum_reflux_nonneg ha hxi0 hxi1 (not_lt.mp hf1)
    have hRpos : 0 < 1 + minimum_reflux alpha xd (intersection_q_and_VLE q xf xi_sol) * R_fac := by
      have := mul_nonneg hrmin hRf.le
      linarith
    refine ⟨by linarith, ne_of_gt hxi0, by linarith, hRpos, ?_, ?_⟩
    · intro hq
      subst hq
      exact ⟨by simp [x_upper], by simp [intersection_q_and_VLE]⟩
    · intro hslope
      rcases div_eq_zero_iff.mp hslope with h0 | h0
      · have hyu : rectifying_line
            (minimum_reflux alpha xd (intersection_q_and_VLE q xf xi_sol) * R_fac)
            xd (x_upper q xf xu_sol) = xb := by linarith
        rw [hyu]
        exact self_lt_equilibrium ha hxb (by linarith)
      · exact absurd h0 hxu

/-- Witness for the amended C10 at a concrete feasible input with
R_fac = 11/10 (and a concrete Antoine list for the real-valued part). -/
theorem C10_witness :
    0 < listMin (P_vap [((1 : ℝ), (2 : ℝ), (1 : ℝ))] 1) ∧
    ((2 : ℚ) - 1 ≠ 0 ∧
      intersection_q_and_VLE 1 (1/2) 0 ≠ 0 ∧
      1 - intersection_q_and_VLE 1 (1/2) 0 ≠ 0 ∧
      0 < 1 + minimum_reflux 2 (9/10) (intersection_q_and_VLE 1 (1/2) 0) * (11/10) ∧
      ((1 : ℚ) = 1 → x_upper 1 (1/2) 0 = 1/2 ∧
        intersection_q_and_VLE 1 (1/2) 0 = 1/2) ∧
      (stripping_slope
          (rectifying_line
            (minimum_reflux 2 (9/10) (intersection_q_and_VLE 1 (1/2) 0) * (11/10))
            (9/10) (x_upper 1 (1/2) 0))
          (x_upper 1 (1/2) 0) (1/10) = 0 →
        rectifying_line
            (minimum_reflux 2 (9/10) (intersection_q_and_VLE 1 (1/2) 0) * (11/10))
            (9/10) (x_upper 1 (1/2) 0) < equilibrium 2 (1/10))) :=
  ⟨C10_amended.1 [((1 : ℝ), (2 : ℝ), (1 : ℝ))] 1 (by simp)
      (by intro t ht; simp only [List.mem_singleton] at ht; subst ht; norm_num),
    C10_amended.2 2 (9/10) (1/10) (1/2) 1 (11/10) 0 0 (by norm_num) (by norm_num)
      (by norm_num) (by norm_num) (by norm_num)
      (by norm_num [equilibrium, intersection_q_and_VLE])
      (by norm_num [intersection_q_and_VLE])
      (by norm_num [intersection_q_and_VLE])
      (by norm_num [x_upper]) (by norm_num)⟩

/-! ### Algebra of the rectifying line and the affine solver -/

theorem equilibrium_mono {alpha x y : ℚ} (ha : 1 < alpha) (hx : 0 ≤ x)
    (hxy : x ≤ y) : equilibrium alpha x ≤ equilibrium alpha y := by
  rcases eq_or_lt_of_le hxy with rfl | h
  · exact le_refl _
  · exact (equilibrium_strictMono ha hx h).le

theorem rectifying_line_div {R xd x : ℚ} (hR : (1 : ℚ) + R ≠ 0) :
    rectifying_line R xd x = (R * x + xd) / (1 + R) := by
  rw [rectifying_line]
  field_simp

theorem rectifying_line_mono {R xd x y : ℚ} (hR : 0 < R) (hxy : x ≤ y) :
    rectifying_line R xd x ≤ rectifying_line R xd y := by
  have h1R : (0 : ℚ) < 1 + R := by linarith
  have ha : (0 : ℚ) ≤ R / (1 + R) := by positivity
  rw [rectifying_line, rectifying_line]
  nlinarith [mul_le_mul_of_nonneg_left hxy ha]

theorem lt_of_rectifying_line_lt {R xd x y : ℚ} (hR : 0 < R)
    (h : rectifying_line R xd x < rectifying_line R xd y) : x < y := by
  by_contra hc
  exact absurd (rectifying_line_mono hR (not_lt.mp hc)) (not_le.mpr h)

theorem rectifying_line_at_xd {R xd : ℚ} (hR : (1 : ℚ) + R ≠ 0) :
    rectifying_line R xd xd = xd := by
  rw [rectifying_line_div hR, div_eq_iff hR]
  ring

theorem solve_rectifying_eq {R xd t : ℚ} (hR : 0 < R) :
    solve_rectifying R xd t = (t * (1 + R) - xd) / R := by
  have h1R : (1 : ℚ) + R ≠ 0 := by linarith
  have hRne : R ≠ 0 := ne_of_gt hR
  rw [solve_rectifying]
  field_simp

theorem rectifying_line_solve {R xd t : ℚ} (hR : 0 < R) :
    rectifying_line R xd (solve_rectifying R xd t) = t := by
  have h1R : (1 : ℚ) + R ≠ 0 := by linarith
  have hRne : R ≠ 0 := ne_of_gt hR
  rw [solve_rectifying_eq hR, rectifying_line_div h1R, div_eq_iff h1R]
  field_simp

/-! ### Concavity of the equilibrium curve (chord bound) -/

/-- The equilibrium curve lies above each of its chords: the cleared form of
the concavity inequality, with the exact remainder
alpha*(alpha-1)*(u-x1)*(x2-u)*(x2-x1) over the product of denominators. -/
theorem equilibrium_chord {alpha x1 u x2 : ℚ} (ha : 1 < alpha) (h1 : 0 ≤ x1)
    (h2 : x1 ≤ u) (h3 : u ≤ x2) :
    equilibrium alpha x1 * (x2 - u) + equilibrium alpha x2 * (u - x1) ≤
      equilibrium alpha u * (x2 - x1) := by
  have hd1 := equilibrium_denom_pos ha h1
  have hdu := equilibrium_denom_pos ha (h1.trans h2)
  have hd2 := equilibrium_denom_pos ha (h1.trans (h2.trans h3))
  rw [← sub_nonneg]
  have key : equilibrium alpha u * (x2 - x1) -
      (equilibrium alpha x1 * (x2 - u) + equilibrium alpha x2 * (u - x1)) =
      alpha * (alpha - 1) * (u - x1) * (x2 - u) * (x2 - x1) /
        ((1 + (alpha - 1) * x1) * ((1 + (alpha - 1) * u) * (1 + (alpha - 1) * x2))) := by
    rw [equilibrium, equilibrium, equilibrium]
    field_simp
    ring
  rw [key]
  apply div_nonneg
  · have hap : (0 : ℚ) ≤ alpha := by linarith
    have ham : (0 : ℚ) ≤ alpha - 1 := by linarith
    have hp1 : (0 : ℚ) ≤ u - x1 := by linarith
    have hp2 : (0 : ℚ) ≤ x2 - u := by linarith
    have hp3 : (0 : ℚ) ≤ x2 - x1 := by linarith
    exact mul_nonneg (mul_nonneg (mul_nonneg (mul_nonneg hap ham) hp1) hp2) hp3
  · exact (mul_pos hd1 (mul_pos hdu hd2)).le

/-- If an affine function sits below the equilibrium curve by d1 at x1 and
by d2 at x2, it sits below by min d1 d2 on all of [x1, x2]. -/
theorem chord_gap_bound {alpha x1 x2 m c d1 d2 x : ℚ} (ha : 1 < alpha)
    (h1 : 0 ≤ x1) (hx12 : x1 < x2)
    (hg1 : m * x1 + c + d1 ≤ equilibrium alpha x1)
    (hg2 : m * x2 + c + d2 ≤ equilibrium alpha x2)
    (hx : x1 ≤ x) (hx2 : x ≤ x2) :
    m * x + c + min d1 d2 ≤ equilibrium alpha x := by
  have hch := equilibrium_chord ha h1 hx hx2
  have hpos : (0 : ℚ) < x2 - x1 := by linarith
  have e1 : (m * x1 + c + d1) * (x2 - x) ≤ equilibrium alpha x1 * (x2 - x) :=
    mul_le_mul_of_nonneg_right hg1 (by linarith)
  have e2 : (m * x2 + c + d2) * (x - x1) ≤ equilibrium alpha x2 * (x - x1) :=
    mul_le_mul_of_nonneg_right hg2 (by linarith)
  have e1x : (m * x1 + c + d1) * (x2 - x) =
      (m * x1 + c) * (x2 - x) + d1 * (x2 - x) := by ring
  have e2x : (m * x2 + c + d2) * (x - x1) =
      (m * x2 + c) * (x - x1) + d2 * (x - x1) := by ring
  have p1 : min d1 d2 * (x2 - x) ≤ d1 * (x2 - x) :=
    mul_le_mul_of_nonneg_right (min_le_left d1 d2) (by linarith)
  have p2 : min d1 d2 * (x - x1) ≤ d2 * (x - x1) :=
    mul_le_mul_of_nonneg_right (min_le_right d1 d2) (by linarith)
  have lhs_eq : (m * x + c + min d1 d2) * (x2 - x1) =
      (m * x1 + c) * (x2 - x) + (m * x2 + c) * (x - x1) +
        min d1 d2 * (x2 - x) + min d1 d2 * (x - x1) := by ring
  have target2 : (m * x + c + min d1 d2) * (x2 - x1) ≤
      equilibrium alpha x * (x2 - x1) := by
    rw [lhs_eq]
    rw [e1x] at e1
    rw [e2x] at e2
    linarith
  exact le_of_mul_le_mul_right target2 hpos

/-! ### Fuel monotonicity of the two loops -/

theorem stripLoop_mono (alpha yu slope b R xd : ℚ) :
    ∀ (n m : ℕ) (px py : List ℚ) (x : ℚ) (r : List ℚ × List ℚ × ℚ),
      n ≤ m → stripLoop alpha yu slope b R xd n px py x = some r →
      stripLoop alpha yu slope b R xd m px py x = some r := by
  intro n
  induction n with
  | zero => intro m px py x r _ h; exact Option.noConfusion h
  | succ k ih =>
    intro m px py x r hnm h
    rcases m with _ | m1
    · omega
    · rw [stripLoop] at h ⊢
      split at h
      · rename_i hc
        rw [if_pos hc]
        exact h
      · rename_i hc
        rw [if_neg hc]
        exact ih m1 _ _ _ r (by omega) h

theorem rectLoop_mono (alpha R xd : ℚ) :
    ∀ (n m : ℕ) (px py : List ℚ) (x : ℚ) (r : List ℚ × List ℚ),
      n ≤ m → rectLoop alpha R xd n px py x = some r →
      rectLoop alpha R xd m px py x = some r := by
  intro n
  induction n with
  | zero => intro m px py x r _ h; exact Option.noConfusion h
  | succ k ih =>
    intro m px py x r hnm h
    rcases m with _ | m1
    · omega
    · rw [rectLoop] at h ⊢
      split at h
      · rename_i hc
        rw [if_pos hc]
        exact h
      · rename_i hc
        rw [if_neg hc]
        exact ih m1 _ _ _ r (by omega) h

/-! ### Termination of the stripping loop (q = 1, strictly feasible, R above minimum) -/

/-- Termination of the stripping loop.  If the equilibrium curve clears both
ends of the stripping line (by margins whose minimum is dl), each iteration
advances x by at least dl/slope, so the loop transitions within any fuel n
with slope*(xf - x) < n*dl, and the transition abscissa lands strictly
between xf and xd, strictly below the equilibrium curve. -/
theorem stripLoop_terminates
    (alpha xb xf xd R yu slope b dl : ℚ)
    (ha : 1 < alpha) (hxb0 : 0 < xb) (hbf : xb < xf) (hfd : xf < xd)
    (hxd1 : xd < 1) (hR : 0 < R)
    (hfeas : equilibrium alpha xf < xd)
    (hyu : yu = rectifying_line R xd xf)
    (hsl : slope = stripping_slope yu xf xb)
    (hb : b = xb - slope * xb)
    (hyu_lt : yu < equilibrium alpha xf)
    (hyu_gt : xb < yu)
    (hdl : dl = min (equilibrium alpha xb - xb) (equilibrium alpha xf - yu)) :
    ∀ (n : ℕ) (x : ℚ) (px py : List ℚ),
      xb ≤ x → x ≤ xf → slope * (xf - x) < n * dl →
      ∃ px1 py1 xe,
        stripLoop alpha yu slope b R xd (n + 1) px py x = some (px1, py1, xe) ∧
        xf < xe ∧ xe < xd ∧ rectifying_line R xd xe < equilibrium alpha xe := by
  have hxf1 : xf < 1 := lt_trans hfd hxd1
  have hxb1 : xb < 1 := lt_trans hbf hxf1
  have h1R : (0 : ℚ) < 1 + R := by linarith
  have hslope_pos : 0 < slope := by
    rw [hsl, stripping_slope]
    exact div_pos (by linarith) (by linarith)
  have hslope_ne : slope ≠ 0 := ne_of_gt hslope_pos
  have hline_xf : slope * xf + b = yu := by
    have hne : xf - xb ≠ 0 := ne_of_gt (by linarith)
    rw [hb, hsl, stripping_slope]
    field_simp
    ring
  have hline_xb : slope * xb + b = xb := by rw [hb]; ring
  have hdl_pos : 0 < dl := by
    rw [hdl]
    apply lt_min
    · linarith [self_lt_equilibrium ha hxb0 hxb1]
    · linarith
  have hgap : ∀ x, xb ≤ x → x ≤ xf →
      slope * x + b + dl ≤ equilibrium alpha x := by
    intro x hx1 hx2
    rw [hdl]
    exact chord_gap_bound ha hxb0.le hbf (by linarith) (by linarith) hx1 hx2
  intro n
  induction n with
  | zero =>
    intro x px py hx1 hx2 hlt
    exfalso
    have h0 : (0 : ℚ) ≤ slope * (xf - x) := mul_nonneg hslope_pos.le (by linarith)
    push_cast at hlt
    linarith
  | succ k ih =>
    intro x px py hx1 hx2 hlt
    rw [stripLoop]
    by_cases hex : yu < equilibrium alpha x
    · rw [if_pos hex]
      have hx0 : (0 : ℚ) ≤ x := le_trans hxb0.le hx1
      have hfx_lt : equilibrium alpha x < xd :=
        lt_of_le_of_lt (equilibrium_mono ha hx0 hx2) hfeas
      have hxe_gt : xf < solve_rectifying R xd (equilibrium alpha x) := by
        apply lt_of_rectifying_line_lt hR
        rw [rectifying_line_solve hR, ← hyu]
        exact hex
      have hxe_lt : solve_rectifying R xd (equilibrium alpha x) < xd := by
        apply lt_of_rectifying_line_lt hR
        rw [rectifying_line_solve hR, rectifying_line_at_xd (ne_of_gt h1R)]
        exact hfx_lt
      refine ⟨_, _, _, rfl, hxe_gt, hxe_lt, ?_⟩
      rw [rectifying_line_solve hR]
      exact equilibrium_strictMono ha hx0 (lt_of_le_of_lt hx2 hxe_gt)
    · rw [if_neg hex]
      push_neg at hex
      have hxlt : x < xf := by
        by_contra hc
        push_neg at hc
        have := equilibrium_mono ha (by linarith : (0 : ℚ) ≤ xf) hc
        linarith
      have hgx := hgap x hx1 hx2
      set x2 := (equilibrium alpha x - b) / slope with hx2def
      have hx2_slope : x2 * slope = equilibrium alpha x - b :=
        div_mul_cancel₀ _ hslope_ne
      have hx2_ge : x + dl / slope ≤ x2 := by
        rw [hx2def, le_div_iff hslope_pos]
        have e : (x + dl / slope) * slope = slope * x + dl := by
          field_simp
          ring
        rw [e]
        linarith
      have hx2_le : x2 ≤ xf := by
        rw [hx2def, div_le_iff hslope_pos]
        nlinarith [hline_xf]
      have hx2_ge_xb : xb ≤ x2 := by
        have hds : 0 < dl / slope := div_pos hdl_pos hslope_pos
        linarith
      have hprog : slope * (xf - x2) < k * dl := by
        have e1 : slope * (x + dl / slope) ≤ slope * x2 :=
          mul_le_mul_of_nonneg_left hx2_ge hslope_pos.le
        have e2 : slope * (x + dl / slope) = slope * x + dl := by
          field_simp
          ring
        have r1 : slope * (xf - x) = slope * xf - slope * x := by ring
        have r2 : slope * (xf - x2) = slope * xf - slope * x2 := by ring
        push_cast at hlt
        linarith
      exact ih x2 _ _ hx2_ge_xb hx2_le hprog

/-- Termination of the rectifying loop from a start point strictly below xd
and strictly below the equilibrium curve. -/
theorem rectLoop_terminates
    (alpha xd R x0 d2 : ℚ)
    (ha : 1 < alpha) (hxd0 : 0 < xd) (hxd1 : xd < 1) (hR : 0 < R)
    (hx00 : 0 < x0) (hx0d : x0 < xd)
    (hgap0 : rectifying_line R xd x0 < equilibrium alpha x0)
    (hd2 : d2 = min (equilibrium alpha x0 - rectifying_line R xd x0)
        (equilibrium alpha xd - xd)) :
    ∀ (n : ℕ) (x : ℚ) (px py : List ℚ),
      x0 ≤ x → R / (1 + R) * (xd - x) < n * d2 →
      ∃ px1 py1, rectLoop alpha R xd (n + 1) px py x = some (px1, py1) := by
  have h1R : (0 : ℚ) < 1 + R := by linarith
  have hapos : (0 : ℚ) < R / (1 + R) := by positivity
  have hfxd : xd < equilibrium alpha xd := self_lt_equilibrium ha hxd0 hxd1
  have hd2_pos : 0 < d2 := by
    rw [hd2]
    exact lt_min (by linarith) (by linarith)
  have hrect0 : rectifying_line R xd x0 = R / (1 + R) * x0 + 1 / (1 + R) * xd := by
    rw [rectifying_line]
  have hrectd : R / (1 + R) * xd + 1 / (1 + R) * xd = xd := by
    have := @rectifying_line_at_xd R xd (ne_of_gt h1R)
    rw [rectifying_line] at this
    exact this
  have hgap : ∀ x, x0 ≤ x → x ≤ xd →
      R / (1 + R) * x + 1 / (1 + R) * xd + d2 ≤ equilibrium alpha x := by
    intro x hx1 hx2
    rw [hd2]
    exact chord_gap_bound ha hx00.le hx0d (by linarith) (by linarith) hx1 hx2
  intro n
  induction n with
  | zero =>
    intro x px py hx1 hlt
    push_cast at hlt
    have hxgt : xd < x := by
      by_contra hc
      push_neg at hc
      have : (0 : ℚ) ≤ R / (1 + R) * (xd - x) :=
        mul_nonneg hapos.le (by linarith)
      linarith
    have hex : xd < equilibrium alpha x :=
      lt_trans hfxd (equilibrium_strictMono ha hxd0.le hxgt)
    rw [rectLoop, if_pos hex]
    exact ⟨_, _, rfl⟩
  | succ k ih =>
    intro x px py hx1 hlt
    rw [rectLoop]
    by_cases hex : xd < equilibrium alpha x
    · rw [if_pos hex]
      exact ⟨_, _, rfl⟩
    · rw [if_neg hex]
      push_neg at hex
      have hx0le : (0 : ℚ) < x := lt_of_lt_of_le hx00 hx1
      have hxltxd : x < xd := by
        by_contra hc
        push_neg at hc
        have := equilibrium_mono ha hxd0.le hc
        linarith
      have hgx := hgap x hx1 hxltxd.le
      have key := @rectifying_line_solve R xd (equilibrium alpha x) hR
      rw [rectifying_line] at key
      set x2 := solve_rectifying R xd (equilibrium alpha x) with hx2def
      have hax2 : R / (1 + R) * x + d2 ≤ R / (1 + R) * x2 := by linarith
      have hx2gt : x < x2 := by
        have h1 : R / (1 + R) * x < R / (1 + R) * x2 := by linarith
        exact (mul_lt_mul_left hapos).mp h1
      have hprog : R / (1 + R) * (xd - x2) < k * d2 := by
        have r1 : R / (1 + R) * (xd - x) =
            R / (1 + R) * xd - R / (1 + R) * x := by ring
        have r2 : R / (1 + R) * (xd - x2) =
            R / (1 + R) * xd - R / (1 + R) * x2 := by ring
        push_cast at hlt
        linarith
      exact ih x2 _ _ (le_trans hx1 hx2gt.le) hprog

/-! ### Assembling full runs from loop results -/

/-- If both feasibility checks pass and the stripping loop exhausts its
fuel, the whole run times out (the source would still be looping). -/
theorem plot_timeout_of_strip_none (alpha xd xb xf q R_fac xi_sol xu_sol : ℚ)
    (fuel : ℕ)
    (h1 : ¬ (xd < equilibrium alpha (intersection_q_and_VLE q xf xi_sol)))
    (h2 : ¬ (intersection_q_and_VLE q xf xi_sol < xb))
    (hs : stripLoop alpha
        (rectifying_line
          (minimum_reflux alpha xd (intersection_q_and_VLE q xf xi_sol) * R_fac)
          xd (x_upper q xf xu_sol))
        (stripping_slope
          (rectifying_line
            (minimum_reflux alpha xd (intersection_q_and_VLE q xf xi_sol) * R_fac)
            xd (x_upper q xf xu_sol))
          (x_upper q xf xu_sol) xb)
        (xb - stripping_slope
            (rectifying_line
              (minimum_reflux alpha xd (intersection_q_and_VLE q xf xi_sol) * R_fac)
              xd (x_upper q xf xu_sol))
            (x_upper q xf xu_sol) xb * xb)
        (minimum_reflux alpha xd (intersection_q_and_VLE q xf xi_sol) * R_fac)
        xd fuel [xb] [xb] xb = none) :
    plot_mccabe_thiele alpha xd xb xf q R_fac xi_sol xu_sol fuel = .timeout := by
  simp only [plot_mccabe_thiele, h1, h2, if_false]
  rw [hs]

/-- If both feasibility checks pass and both loops return, the whole run
returns the rectifying-loop lists together with the stage count and reflux
ratio of line 174/179. -/
theorem plot_ok_of_loops (alpha xd xb xf q R_fac xi_sol xu_sol : ℚ)
    (fuel : ℕ) (px1 py1 : List ℚ) (xr : ℚ) (px2 py2 : List ℚ)
    (h1 : ¬ (xd < equilibrium alpha (intersection_q_and_VLE q xf xi_sol)))
    (h2 : ¬ (intersection_q_and_VLE q xf xi_sol < xb))
    (hs : stripLoop alpha
        (rectifying_line
          (minimum_reflux alpha xd (intersection_q_and_VLE q xf xi_sol) * R_fac)
          xd (x_upper q xf xu_sol))
        (stripping_slope
          (rectifying_line
            (minimum_reflux alpha xd (intersection_q_and_VLE q xf xi_sol) * R_fac)
            xd (x_upper q xf xu_sol))
          (x_upper q xf xu_sol) xb)
        (xb - stripping_slope
            (rectifying_line
              (minimum_reflux alpha xd (intersection_q_and_VLE q xf xi_sol) * R_fac)
              xd (x_upper q xf xu_sol))
            (x_upper q xf xu_sol) xb * xb)
        (minimum_reflux alpha xd (intersection_q_and_VLE q xf xi_sol) * R_fac)
        xd fuel [xb] [xb] xb = some (px1, py1, xr))
    (hr : rectLoop alpha
        (minimum_reflux alpha xd (intersection_q_and_VLE q xf xi_sol) * R_fac)
        xd fuel px1 py1 xr = some (px2, py2)) :
    plot_mccabe_thiele alpha xd xb xf q R_fac xi_sol xu_sol fuel =
      .ok px2 py2 (((px2.length : ℚ) - 1) / 2 - 1)
        (minimum_reflux alpha xd (intersection_q_and_VLE q xf xi_sol) * R_fac) := by
  simp only [plot_mccabe_thiele, h1, h2, if_false, hs, hr]

/-! ### C3: termination -/

/-- A pinned stripping loop: if the equilibrium value never exceeds y_upper
on the invariant region [0, B) and the horizontal step stays inside that
region, the stripping loop never terminates, whatever the fuel. -/
theorem stripLoop_pinned (alpha yu slope b R xd B : ℚ)
    (H1 : ∀ x, 0 ≤ x → x < B → ¬ (yu < equilibrium alpha x))
    (H2 : ∀ x, 0 ≤ x → x < B →
        0 ≤ (equilibrium alpha x - b) / slope ∧
          (equilibrium alpha x - b) / slope < B) :
    ∀ (n : ℕ) (px py : List ℚ) (x : ℚ), 0 ≤ x → x < B →
      stripLoop alpha yu slope b R xd n px py x = none := by
  intro n
  induction n with
  | zero => intro px py x _ _; rfl
  | succ k ih =>
    intro px py x hx0 hxB
    rw [stripLoop, if_neg (H1 x hx0 hxB)]
    exact ih _ _ _ (H2 x hx0 hxB).1 (H2 x hx0 hxB).2

/-- At the minimum reflux (reflux factor exactly 1) the staircase pins at
the feed point: the run with alpha = 2, xd = 9/10, xb = 1/10, xf = 1/2,
q = 1, R_fac = 1 times out for every fuel. -/
theorem pinned_run_timeout :
    ∀ n : ℕ, plot_mccabe_thiele 2 (9/10) (1/10) (1/2) 1 1 0 0 n = .timeout := by
  intro n
  apply plot_timeout_of_strip_none
  · norm_num [equilibrium, intersection_q_and_VLE]
  · norm_num [intersection_q_and_VLE]
  · refine stripLoop_pinned _ _ _ _ _ _ (1/2) ?_ ?_ n _ _ _ (by norm_num) (by norm_num)
    · intro x hx0 hxB
      norm_num [intersection_q_and_VLE, x_upper, minimum_reflux, rectifying_line,
        stripping_slope]
      rw [equilibrium, div_le_iff (by linarith : (0 : ℚ) < 1 + (2 - 1) * x)]
      linarith
    · intro x hx0 hxB
      have hfx0 : (0 : ℚ) ≤ equilibrium 2 x := equilibrium_nonneg (by norm_num) hx0
      have hfxlt : equilibrium 2 x < 2/3 := by
        rw [equilibrium, div_lt_iff (by linarith : (0 : ℚ) < 1 + (2 - 1) * x)]
        linarith
      norm_num [intersection_q_and_VLE, x_upper, minimum_reflux, rectifying_line,
        stripping_slope]
      constructor
      · apply div_nonneg (by linarith) (by norm_num)
      · rw [div_lt_iff (by norm_num : (0 : ℚ) < 17/12)]
        linarith

/-- Counterexample to C3.  This input satisfies every hypothesis the claim
lists: alpha = 2 > 1, 0 < xb = 1/10 < xf = 1/2 < xd = 9/10 < 1, q = 1 <= 1,
and the feasibility check passes.  Yet with reflux factor R_fac = 1 (which
the hypotheses do not constrain) the applied reflux equals the minimum
reflux, the staircase pins at the feed point, and the stripping loop never
reaches the DONE state: the run times out at every fuel. -/
theorem C3_counterexample :
    ((1 : ℚ) < 2 ∧ (0 : ℚ) < 1/10 ∧ (1/10 : ℚ) < 1/2 ∧ (1/2 : ℚ) < 9/10 ∧
      (9/10 : ℚ) < 1 ∧ (1 : ℚ) ≤ 1 ∧
      ¬ ((9 : ℚ)/10 < equilibrium 2 (intersection_q_and_VLE 1 (1/2) 0)) ∧
      ¬ (intersection_q_and_VLE 1 (1/2) 0 < 1/10)) ∧
    ¬ ∃ n : ℕ, plot_mccabe_thiele 2 (9/10) (1/10) (1/2) 1 1 0 0 n ≠ .timeout := by
  refine ⟨⟨by norm_num, by norm_num, by norm_num, by norm_num, by norm_num,
    le_refl 1, by norm_num [equilibrium, intersection_q_and_VLE],
    by norm_num [intersection_q_and_VLE]⟩, ?_⟩
  rintro ⟨n, hn⟩
  exact hn (pinned_run_timeout n)

/-- The minimum reflux is strictly positive under strict feasibility. -/
theorem minimum_reflux_pos {alpha xd xi : ℚ} (ha : 1 < alpha)
    (hxi0 : 0 < xi) (hxi1 : xi < 1) (hfeas : equilibrium alpha xi < xd) :
    0 < minimum_reflux alpha xd xi := by
  have hd := equilibrium_denom_pos ha hxi0.le
  have h1 : alpha * xi < xd * (1 + (alpha - 1) * xi) := by
    rw [equilibrium, div_lt_iff hd] at hfeas
    linarith
  have hxine : xi ≠ 0 := ne_of_gt hxi0
  have hxi1ne : 1 - xi ≠ 0 := ne_of_gt (by linarith)
  have hnum : 0 < xd / xi - alpha * ((1 - xd) / (1 - xi)) := by
    have he : xd / xi - alpha * ((1 - xd) / (1 - xi)) =
        (xd * (1 + (alpha - 1) * xi) - alpha * xi) / (xi * (1 - xi)) := by
      field_simp
      ring
    rw [he]
    exact div_pos (by linarith) (mul_pos hxi0 (by linarith))
  exact div_pos hnum (by linarith)

/-- At the minimum reflux the rectifying line passes through the pinch
point (xf, f(xf)): an exact algebraic identity. -/
theorem minimum_reflux_identity {alpha xd xf : ℚ} (ha : 1 < alpha)
    (h0 : 0 < xf) (h1 : xf < 1) :
    equilibrium alpha xf * (1 + minimum_reflux alpha xd xf) =
      minimum_reflux alpha xd xf * xf + xd := by
  have hd := equilibrium_denom_pos ha h0.le
  have hne1 : xf ≠ 0 := ne_of_gt h0
  have hne2 : (1 : ℚ) - xf ≠ 0 := ne_of_gt (by linarith)
  have hne3 : alpha - 1 ≠ 0 := ne_of_gt (by linarith)
  rw [equilibrium, minimum_reflux]
  field_simp
  ring

/-- Amended C3.  For a saturated-liquid feed (q = 1), a strictly feasible
design (the feed/equilibrium intersection strictly below xd) and a reflux
factor strictly greater than 1 - the strengthening the counterexample
forces - both loops terminate and the run completes (the DONE state of the
specification corresponds to the ok result). -/
theorem C3_amended (alpha xb xf xd R_fac xi_sol xu_sol : ℚ)
    (ha : 1 < alpha) (hxb : 0 < xb) (hbf : xb < xf) (hfd : xf < xd)
    (hxd1 : xd < 1) (hfeas : equilibrium alpha xf < xd) (hRf : 1 < R_fac) :
    ∃ (fuel : ℕ) (px py : List ℚ) (n R : ℚ),
      plot_mccabe_thiele alpha xd xb xf 1 R_fac xi_sol xu_sol fuel =
        .ok px py n R := by
  have hxi : intersection_q_and_VLE 1 xf xi_sol = xf := if_pos rfl
  have hxu : x_upper 1 xf xu_sol = xf := if_pos rfl
  have hxf0 : 0 < xf := lt_trans hxb hbf
  have hxf1 : xf < 1 := lt_trans hfd hxd1
  have hyif := self_lt_equilibrium ha hxf0 hxf1
  have hRmin_pos : 0 < minimum_reflux alpha xd xf :=
    minimum_reflux_pos ha hxf0 hxf1 hfeas
  set Rmin := minimum_reflux alpha xd xf with hRmin_def
  set R := Rmin * R_fac with hRdef
  have hRpos : 0 < R := mul_pos hRmin_pos (by linarith)
  have hRgt : Rmin < R := by
    have h := mul_lt_mul_of_pos_left hRf hRmin_pos
    rw [mul_one] at h
    exact h
  have h1R : (0 : ℚ) < 1 + R := by linarith
  have h1Rmin : (0 : ℚ) < 1 + Rmin := by linarith
  have hkey : equilibrium alpha xf * (1 + Rmin) = Rmin * xf + xd :=
    minimum_reflux_identity ha hxf0 hxf1
  set yu := rectifying_line R xd xf with hyu_def
  have hyu_lt : yu < equilibrium alpha xf := by
    rw [hyu_def, rectifying_line_div (ne_of_gt h1R), div_lt_iff h1R]
    nlinarith [mul_pos (sub_pos.2 hRgt) (sub_pos.2 hyif)]
  have hyu_gt : xb < yu := by
    rw [hyu_def, rectifying_line_div (ne_of_gt h1R), lt_div_iff h1R]
    nlinarith [mul_pos hRpos (sub_pos.2 hbf)]
  set slope := stripping_slope yu xf xb with hsl_def
  set b := xb - slope * xb with hb_def
  set dl := min (equilibrium alpha xb - xb) (equilibrium alpha xf - yu)
    with hdl_def
  have hxb1 : xb < 1 := lt_trans hbf hxf1
  have hdl_pos : 0 < dl := by
    rw [hdl_def]
    exact lt_min (by linarith [self_lt_equilibrium ha hxb hxb1]) (by linarith)
  have hslope_pos : 0 < slope := by
    rw [hsl_def, stripping_slope]
    exact div_pos (by linarith) (by linarith)
  obtain ⟨n1, hn1⟩ := exists_nat_gt (slope * (xf - xb) / dl)
  have hfuel1 : slope * (xf - xb) < n1 * dl := by
    rw [div_lt_iff hdl_pos] at hn1
    linarith
  obtain ⟨px1, py1, xe, hs1, hxe1, hxe2, hxe3⟩ :=
    stripLoop_terminates alpha xb xf xd R yu slope b dl ha hxb hbf hfd hxd1
      hRpos hfeas hyu_def hsl_def hb_def hyu_lt hyu_gt hdl_def n1 xb [xb] [xb]
      (le_refl xb) hbf.le hfuel1
  set d2 := min (equilibrium alpha xe - rectifying_line R xd xe)
      (equilibrium alpha xd - xd) with hd2_def
  have hxd0 : (0 : ℚ) < xd := by linarith
  have hd2_pos : 0 < d2 := by
    rw [hd2_def]
    exact lt_min (by linarith)
      (by linarith [self_lt_equilibrium ha hxd0 hxd1])
  have hxe0 : 0 < xe := lt_trans hxf0 hxe1
  obtain ⟨n2, hn2⟩ := exists_nat_gt (R / (1 + R) * (xd - xe) / d2)
  have hfuel2 : R / (1 + R) * (xd - xe) < n2 * d2 := by
    rw [div_lt_iff hd2_pos] at hn2
    linarith
  obtain ⟨px2, py2, hr1⟩ :=
    rectLoop_terminates alpha xd R xe d2 ha hxd0 hxd1 hRpos hxe0 hxe2 hxe3
      hd2_def n2 xe px1 py1 (le_refl xe) hfuel2
  have hs2 := stripLoop_mono alpha yu slope b R xd (n1 + 1)
    (max (n1 + 1) (n2 + 1)) [xb] [xb] xb _ (le_max_left _ _) hs1
  have hr2 := rectLoop_mono alpha R xd (n2 + 1) (max (n1 + 1) (n2 + 1))
    px1 py1 xe _ (le_max_right _ _) hr1
  refine ⟨max (n1 + 1) (n2 + 1), px2, py2,
    ((px2.length : ℚ) - 1) / 2 - 1,
    minimum_reflux alpha xd (intersection_q_and_VLE 1 xf xi_sol) * R_fac, ?_⟩
  apply plot_ok_of_loops
  · rw [hxi]
    exact not_lt.mpr hfeas.le
  · rw [hxi]
    exact not_lt.mpr hbf.le
  · rw [hxi, hxu, ← hRmin_def, ← hRdef, ← hyu_def, ← hsl_def, ← hb_def]
    exact hs2
  · rw [hxi, ← hRmin_def, ← hRdef]
    exact hr2

/-- Witness for the amended C3: a concrete strictly feasible q = 1 design
with R_fac = 3 terminates. -/
theorem C3_witness :
    (1 : ℚ) < 2 ∧
    ∃ (fuel : ℕ) (px py : List ℚ) (n R : ℚ),
      plot_mccabe_thiele 2 (3/4) (1/4) (1/2) 1 3 0 0 fuel = .ok px py n R :=
  ⟨by norm_num,
    C3_amended 2 (1/4) (1/2) (3/4) 3 0 0 (by norm_num) (by norm_num)
      (by norm_num) (by norm_num) (by norm_num)
      (by norm_num [equilibrium]) (by norm_num)⟩

/-! ### C6: monotonicity of the stage count in the reflux factor -/

/-- The number_of_stages component of a completed run. -/
def MTResult.stage_count : MTResult → Option ℚ
  | .ok _ _ n _ => some n
  | _ => none

set_option maxHeartbeats 2000000 in
/-- Full evaluation of the run alpha = 3, xd = 3/4, xb = 1/4, xf = 2/5,
q = 1 with reflux factor -4: the applied reflux is -5/4 and the staircase
completes with a single stage. -/
theorem low_factor_run_eq :
    plot_mccabe_thiele 3 (3/4) (1/4) (2/5) 1 (-4) 0 0 10 =
      .ok [1/4, 1/4, 7/10, 7/10, 3/4] [1/4, 1/2, 1/2, 3/4, 3/4] 1 (-5/4) := by
  norm_num [plot_mccabe_thiele, stripLoop, rectLoop, equilibrium,
    intersection_q_and_VLE, minimum_reflux, rectifying_line, solve_rectifying,
    x_upper, stripping_slope, List.dropLast_concat]

set_option maxHeartbeats 2000000 in
/-- Full evaluation of the same design with reflux factor 8: the applied
reflux is 5/2 and the staircase needs two stages. -/
theorem high_factor_run_eq :
    plot_mccabe_thiele 3 (3/4) (1/4) (2/5) 1 8 0 0 10 =
      .ok [1/4, 1/4, 2/5, 2/5, 19/30, 19/30, 3/4]
        [1/4, 1/2, 1/2, 2/3, 2/3, 3/4, 3/4] 2 (5/2) := by
  norm_num [plot_mccabe_thiele, stripLoop, rectLoop, equilibrium,
    intersection_q_and_VLE, minimum_reflux, rectifying_line, solve_rectifying,
    x_upper, stripping_slope, List.dropLast_concat]

/-- Counterexample to C6.  Two runs of the same design (alpha = 3,
xd = 3/4, xb = 1/4, xf = 2/5, q = 1), identical except for the reflux
factor, both passing the feasibility check and both completing; the claim
does not constrain the reflux factor, and with the negative factor -4 the
applied reflux is -5/4, giving a steep rectifying line and a single stage,
while the larger factor 8 gives two stages: the run with the larger factor
returns strictly more stages. -/
theorem C6_counterexample :
    (-4 : ℚ) < 8 ∧
    (plot_mccabe_thiele 3 (3/4) (1/4) (2/5) 1 (-4) 0 0 10).stage_count = some 1 ∧
    (plot_mccabe_thiele 3 (3/4) (1/4) (2/5) 1 8 0 0 10).stage_count = some 2 ∧
    ¬ ((2 : ℚ) ≤ 1) := by
  refine ⟨by norm_num, ?_, ?_, by norm_num⟩
  · rw [low_factor_run_eq]
    rfl
  · rw [high_factor_run_eq]
    rfl

/-! ### Runs that complete must be strictly feasible and above minimum reflux -/

/-- Variant of the pinned-loop lemma with a closed invariant interval. -/
theorem stripLoop_pinned2 (alpha yu slope b R xd lo hi : ℚ)
    (H1 : ∀ x, lo ≤ x → x ≤ hi → ¬ (yu < equilibrium alpha x))
    (H2 : ∀ x, lo ≤ x → x ≤ hi →
        lo ≤ (equilibrium alpha x - b) / slope ∧
          (equilibrium alpha x - b) / slope ≤ hi) :
    ∀ (n : ℕ) (px py : List ℚ) (x : ℚ), lo ≤ x → x ≤ hi →
      stripLoop alpha yu slope b R xd n px py x = none := by
  intro n
  induction n with
  | zero => intro px py x _ _; rfl
  | succ k ih =>
    intro px py x hx1 hx2
    rw [stripLoop, if_neg (H1 x hx1 hx2)]
    exact ih _ _ _ (H2 x hx1 hx2).1 (H2 x hx1 hx2).2

/-- A completed run passed both feasibility checks. -/
theorem ok_feasible (alpha xd xb xf q R_fac xi_sol xu_sol : ℚ) (fuel : ℕ)
    (px py : List ℚ) (n Rv : ℚ)
    (hok : plot_mccabe_thiele alpha xd xb xf q R_fac xi_sol xu_sol fuel =
      .ok px py n Rv) :
    ¬ (xd < equilibrium alpha (intersection_q_and_VLE q xf xi_sol)) ∧
      ¬ (intersection_q_and_VLE q xf xi_sol < xb) := by
  by_cases h1 : xd < equilibrium alpha (intersection_q_and_VLE q xf xi_sol)
  · simp [plot_mccabe_thiele, h1] at hok
  · by_cases h2 : intersection_q_and_VLE q xf xi_sol < xb
    · simp [plot_mccabe_thiele, h1, h2] at hok
    · exact ⟨h1, h2⟩

/-- The minimum reflux vanishes exactly on the feasibility boundary
(feed/equilibrium intersection exactly at xd). -/
theorem minimum_reflux_eq_zero {alpha xd xi : ℚ} (ha : 1 < alpha)
    (h0 : 0 < xi) (h1 : xi < 1) (heq : equilibrium alpha xi = xd) :
    minimum_reflux alpha xd xi = 0 := by
  have hd := equilibrium_denom_pos ha h0.le
  rw [equilibrium, div_eq_iff (ne_of_gt hd)] at heq
  have hxine : xi ≠ 0 := ne_of_gt h0
  have hxi1ne : (1 : ℚ) - xi ≠ 0 := ne_of_gt (by linarith)
  have he : xd / xi - alpha * ((1 - xd) / (1 - xi)) =
      (xd * (1 + (alpha - 1) * xi) - alpha * xi) / (xi * (1 - xi)) := by
    field_simp
    ring
  rw [minimum_reflux, he,
    show xd * (1 + (alpha - 1) * xi) - alpha * xi = 0 by linarith]
  simp

/-- At the minimum reflux, the rectifying line meets the equilibrium curve
at the feed abscissa. -/
theorem rect_min_reflux_eq {alpha xd xf : ℚ} (ha : 1 < alpha)
    (h0 : 0 < xf) (h1 : xf < 1)
    (h1R : (0 : ℚ) < 1 + minimum_reflux alpha xd xf) :
    rectifying_line (minimum_reflux alpha xd xf) xd xf = equilibrium alpha xf := by
  rw [rectifying_line_div (ne_of_gt h1R), eq_comm, eq_div_iff (ne_of_gt h1R)]
  exact minimum_reflux_identity ha h0 h1

/-- The rectifying line is strictly antitone in the reflux below xd. -/
theorem rect_anti_strict {R1 R2 xd x : ℚ} (hx : x < xd) (hR1 : 0 < R1)
    (hR12 : R1 < R2) :
    rectifying_line R2 xd x < rectifying_line R1 xd x := by
  have h1 : (0 : ℚ) < 1 + R1 := by linarith
  have h2 : (0 : ℚ) < 1 + R2 := by linarith
  rw [rectifying_line_div (ne_of_gt h1), rectifying_line_div (ne_of_gt h2),
    div_lt_div_iff h2 h1]
  nlinarith [mul_pos (sub_pos.2 hR12) (sub_pos.2 hx)]

/-- The rectifying line is weakly antitone in the reflux at or below xd. -/
theorem rect_anti_le {R1 R2 xd x : ℚ} (hx : x ≤ xd) (hR1 : 0 < R1)
    (hR12 : R1 ≤ R2) :
    rectifying_line R2 xd x ≤ rectifying_line R1 xd x := by
  have h1 : (0 : ℚ) < 1 + R1 := by linarith
  have h2 : (0 : ℚ) < 1 + R2 := by linarith
  rw [rectifying_line_div (ne_of_gt h1), rectifying_line_div (ne_of_gt h2),
    div_le_div_iff h2 h1]
  nlinarith [mul_nonneg (sub_nonneg.2 hR12) (sub_nonneg.2 hx)]

/-- If the applied rectifying line at xf is at or above the equilibrium
value there, the staircase pins inside [xb, xf] and the run times out. -/
theorem run_timeout_of_low_reflux (alpha xd xb xf R_fac xi_sol xu_sol : ℚ)
    (fuel : ℕ) (ha : 1 < alpha) (hxb : 0 < xb) (hbf : xb < xf) (hxf1 : xf < 1)
    (hfe : ¬ (xd < equilibrium alpha xf))
    (hcond : equilibrium alpha xf ≤
      rectifying_line (minimum_reflux alpha xd xf * R_fac) xd xf) :
    plot_mccabe_thiele alpha xd xb xf 1 R_fac xi_sol xu_sol fuel = .timeout := by
  have hxi : intersection_q_and_VLE 1 xf xi_sol = xf := if_pos rfl
  have hxu : x_upper 1 xf xu_sol = xf := if_pos rfl
  have hxf0 : 0 < xf := lt_trans hxb hbf
  have hfxf := self_lt_equilibrium ha hxf0 hxf1
  have hxb1 : xb < 1 := lt_trans hbf hxf1
  have hfxb := self_lt_equilibrium ha hxb hxb1
  apply plot_timeout_of_strip_none
  · rw [hxi]; exact hfe
  · rw [hxi]; exact not_lt.mpr hbf.le
  · rw [hxi, hxu]
    set YU := rectifying_line (minimum_reflux alpha xd xf * R_fac) xd xf with hYU
    have hyu_gt : xb < YU := by
      calc xb < xf := hbf
        _ < equilibrium alpha xf := hfxf
        _ ≤ YU := hcond
    set SL := stripping_slope YU xf xb with hSL
    have hsl_pos : 0 < SL := by
      rw [hSL, stripping_slope]
      exact div_pos (by linarith) (by linarith)
    have hline : SL * (xf - xb) = YU - xb := by
      rw [hSL, stripping_slope]
      exact div_mul_cancel₀ _ (ne_of_gt (by linarith))
    refine stripLoop_pinned2 _ _ _ _ _ _ xb xf ?_ ?_ fuel _ _ _ (le_refl xb) hbf.le
    · intro x hx1 hx2
      have h1 : equilibrium alpha x ≤ equilibrium alpha xf :=
        equilibrium_mono ha (le_trans hxb.le hx1) hx2
      exact not_lt.mpr (le_trans h1 hcond)
    · intro x hx1 hx2
      have hmono : equilibrium alpha xb ≤ equilibrium alpha x :=
        equilibrium_mono ha hxb.le hx1
      have hfx_le : equilibrium alpha x ≤ YU :=
        le_trans (equilibrium_mono ha (le_trans hxb.le hx1) hx2) hcond
      have hcomm1 : xb * SL = SL * xb := mul_comm xb SL
      have hcomm2 : xf * SL = SL * xf := mul_comm xf SL
      have he : SL * (xf - xb) = SL * xf - SL * xb := by ring
      constructor
      · rw [le_div_iff hsl_pos]
        linarith
      · rw [div_le_iff hsl_pos]
        linarith

/-- A run that completes with a positive reflux factor is strictly
feasible and its reflux factor exceeds 1: otherwise the staircase pins and
the run times out. -/
theorem ok_above_min (alpha xd xb xf R_fac xi_sol xu_sol : ℚ) (fuel : ℕ)
    (px py : List ℚ) (n Rv : ℚ)
    (ha : 1 < alpha) (hxb : 0 < xb) (hbf : xb < xf) (hfd : xf < xd)
    (hxd1 : xd < 1) (hRf : 0 < R_fac)
    (hok : plot_mccabe_thiele alpha xd xb xf 1 R_fac xi_sol xu_sol fuel =
      .ok px py n Rv) :
    equilibrium alpha xf < xd ∧ 1 < R_fac := by
  have hxi : intersection_q_and_VLE 1 xf xi_sol = xf := if_pos rfl
  have hxf0 : 0 < xf := lt_trans hxb hbf
  have hxf1 : xf < 1 := lt_trans hfd hxd1
  obtain ⟨h1, -⟩ := ok_feasible alpha xd xb xf 1 R_fac xi_sol xu_sol fuel
    px py n Rv hok
  rw [hxi] at h1
  have hstrict : equilibrium alpha xf < xd := by
    by_contra hc
    have heq : equilibrium alpha xf = xd :=
      le_antisymm (not_lt.mp h1) (not_lt.mp hc)
    have hRmin0 : minimum_reflux alpha xd xf = 0 :=
      minimum_reflux_eq_zero ha hxf0 hxf1 heq
    have htimeout := run_timeout_of_low_reflux alpha xd xb xf R_fac xi_sol
      xu_sol fuel ha hxb hbf hxf1 h1 (by
        rw [hRmin0, zero_mul, heq]
        rw [rectifying_line]
        norm_num)
    rw [hok] at htimeout
    exact MTResult.noConfusion htimeout
  refine ⟨hstrict, ?_⟩
  by_contra hc
  push_neg at hc
  have hRmin_pos : 0 < minimum_reflux alpha xd xf :=
    minimum_reflux_pos ha hxf0 hxf1 hstrict
  have h1Rmin : (0 : ℚ) < 1 + minimum_reflux alpha xd xf := by linarith
  have hRle : minimum_reflux alpha xd xf * R_fac ≤ minimum_reflux alpha xd xf := by
    nlinarith
  have hRpos : 0 < minimum_reflux alpha xd xf * R_fac := mul_pos hRmin_pos hRf
  have hcond : equilibrium alpha xf ≤
      rectifying_line (minimum_reflux alpha xd xf * R_fac) xd xf := by
    rw [← rect_min_reflux_eq ha hxf0 hxf1 h1Rmin]
    exact rect_anti_le hfd.le hRpos hRle
  have htimeout := run_timeout_of_low_reflux alpha xd xb xf R_fac xi_sol
    xu_sol fuel ha hxb hbf hxf1 h1 hcond
  rw [hok] at htimeout
  exact MTResult.noConfusion htimeout

/-! ### The combined staircase step map

Both stepping loops advance the current abscissa by the same rule: take the
vertical equilibrium step, then come back horizontally to the stripping line
if the equilibrium point is still at or below y_upper, and to the rectifying
line otherwise.  Abstracting this as one map lets a whole run be read as an
orbit of the map, which is how the reflux-monotonicity argument is made. -/

/-- One staircase step at the loop parameters: the abscissa reached from x
after a vertical equilibrium step and the horizontal step back to whichever
operating line the loops would use. -/
def stage_step (alpha yu slope b R xd x : ℚ) : ℚ :=
  if yu < equilibrium alpha x then solve_rectifying R xd (equilibrium alpha x)
  else (equilibrium alpha x - b) / slope

/-- The staircase step map at the parameters a q = 1 run of
plot_mccabe_thiele builds from its design variables and applied reflux. -/
def run_step (alpha xd xb xf R : ℚ) : ℚ → ℚ :=
  stage_step alpha (rectifying_line R xd xf)
    (stripping_slope (rectifying_line R xd xf) xf xb)
    (xb - stripping_slope (rectifying_line R xd xf) xf xb * xb) R xd

/-- Below xd the rectifying line lies strictly above the diagonal. -/
theorem self_lt_rectifying_line {R xd x : ℚ} (hR : 0 < R) (hx : x < xd) :
    x < rectifying_line R xd x := by
  have h1R : (0 : ℚ) < 1 + R := by linarith
  rw [rectifying_line_div (ne_of_gt h1R), lt_div_iff h1R]
  nlinarith

/-- A rectifying-branch step lands strictly beyond xf whenever the
equilibrium value exceeds the rectifying line's value at xf. -/
theorem run_step_rect_gt_xf (alpha xd xb xf R x : ℚ) (hR : 0 < R)
    (hx : rectifying_line R xd xf < equilibrium alpha x) :
    xf < run_step alpha xd xb xf R x := by
  rw [run_step, stage_step, if_pos hx]
  apply lt_of_rectifying_line_lt hR
  rw [rectifying_line_solve hR]
  exact hx

/-- The step map never retreats past xb. -/
theorem run_step_ge_xb (alpha xd xb xf R x : ℚ) (ha : 1 < alpha)
    (hxb : 0 < xb) (hbf : xb < xf) (hfd : xf < xd) (hxd1 : xd < 1)
    (hR : 0 < R) (hx : xb ≤ x) :
    xb ≤ run_step alpha xd xb xf R x := by
  have hxb1 : xb < 1 := by linarith
  have hfx : xb < equilibrium alpha x :=
    lt_of_lt_of_le (self_lt_equilibrium ha hxb hxb1)
      (equilibrium_mono ha hxb.le hx)
  have hyu_xf : xf < rectifying_line R xd xf := self_lt_rectifying_line hR hfd
  have hslope : 0 < stripping_slope (rectifying_line R xd xf) xf xb := by
    rw [stripping_slope]
    exact div_pos (by linarith) (by linarith)
  rw [run_step, stage_step]
  split
  · rename_i hc
    refine le_of_lt (lt_trans hbf ?_)
    apply lt_of_rectifying_line_lt hR
    rw [rectifying_line_solve hR]
    exact hc
  · rw [le_div_iff hslope]
    have h1 : xb * stripping_slope (rectifying_line R xd xf) xf xb =
        stripping_slope (rectifying_line R xd xf) xf xb * xb := mul_comm _ _
    linarith

/-- The step map is monotone in the current abscissa. -/
theorem run_step_mono (alpha xd xb xf R x y : ℚ) (ha : 1 < alpha)
    (hxb : 0 < xb) (hbf : xb < xf) (hfd : xf < xd) (hR : 0 < R)
    (hx : 0 ≤ x) (hxy : x ≤ y) :
    run_step alpha xd xb xf R x ≤ run_step alpha xd xb xf R y := by
  have hf : equilibrium alpha x ≤ equilibrium alpha y := equilibrium_mono ha hx hxy
  have hyu_xf : xf < rectifying_line R xd xf := self_lt_rectifying_line hR hfd
  have hslope : 0 < stripping_slope (rectifying_line R xd xf) xf xb := by
    rw [stripping_slope]
    exact div_pos (by linarith) (by linarith)
  have hline : stripping_slope (rectifying_line R xd xf) xf xb * (xf - xb) =
      rectifying_line R xd xf - xb := by
    rw [stripping_slope]
    exact div_mul_cancel₀ _ (ne_of_gt (by linarith))
  simp only [run_step, stage_step]
  by_cases hcx : rectifying_line R xd xf < equilibrium alpha x
  · have hcy : rectifying_line R xd xf < equilibrium alpha y :=
      lt_of_lt_of_le hcx hf
    rw [if_pos hcx, if_pos hcy, solve_rectifying_eq hR, solve_rectifying_eq hR,
      div_le_div_iff hR hR]
    have h1 := mul_le_mul_of_nonneg_right hf (show (0 : ℚ) ≤ 1 + R by linarith)
    have h2 : equilibrium alpha x * (1 + R) - xd ≤
        equilibrium alpha y * (1 + R) - xd := by linarith
    exact mul_le_mul_of_nonneg_right h2 hR.le
  · rw [if_neg hcx]
    by_cases hcy : rectifying_line R xd xf < equilibrium alpha y
    · rw [if_pos hcy]
      have hrect : xf < solve_rectifying R xd (equilibrium alpha y) := by
        apply lt_of_rectifying_line_lt hR
        rw [rectifying_line_solve hR]
        exact hcy
      have hstrip : (equilibrium alpha x -
          (xb - stripping_slope (rectifying_line R xd xf) xf xb * xb)) /
            stripping_slope (rectifying_line R xd xf) xf xb ≤ xf := by
        rw [div_le_iff hslope]
        push_neg at hcx
        have he : stripping_slope (rectifying_line R xd xf) xf xb * (xf - xb) =
            stripping_slope (rectifying_line R xd xf) xf xb * xf -
              stripping_slope (rectifying_line R xd xf) xf xb * xb := by ring
        have hc2 : xf * stripping_slope (rectifying_line R xd xf) xf xb =
            stripping_slope (rectifying_line R xd xf) xf xb * xf := mul_comm _ _
        linarith
      linarith
    · rw [if_neg hcy, div_le_div_iff hslope hslope]
      exact mul_le_mul_of_nonneg_right (by linarith) hslope.le

/-- Pointwise comparison of the step maps of two runs differing only in
their (positive) applied reflux: below xd, the higher-reflux run steps at
least as far right. -/
theorem run_step_le (alpha xd xb xf R1 R2 x : ℚ) (ha : 1 < alpha)
    (hxb : 0 < xb) (hbf : xb < xf) (hfd : xf < xd) (hxd1 : xd < 1)
    (hR1 : 0 < R1) (hR12 : R1 < R2)
    (hx : xb ≤ x) (hfx : equilibrium alpha x ≤ xd) :
    run_step alpha xd xb xf R1 x ≤ run_step alpha xd xb xf R2 x := by
  have hR2 : 0 < R2 := lt_trans hR1 hR12
  have hyu1_xf : xf < rectifying_line R1 xd xf := self_lt_rectifying_line hR1 hfd
  have hyu2_xf : xf < rectifying_line R2 xd xf := self_lt_rectifying_line hR2 hfd
  have hyu21 : rectifying_line R2 xd xf < rectifying_line R1 xd xf :=
    rect_anti_strict hfd hR1 hR12
  have hs1 : 0 < stripping_slope (rectifying_line R1 xd xf) xf xb := by
    rw [stripping_slope]
    exact div_pos (by linarith) (by linarith)
  have hs2 : 0 < stripping_slope (rectifying_line R2 xd xf) xf xb := by
    rw [stripping_slope]
    exact div_pos (by linarith) (by linarith)
  have hs21 : stripping_slope (rectifying_line R2 xd xf) xf xb <
      stripping_slope (rectifying_line R1 xd xf) xf xb := by
    rw [stripping_slope, stripping_slope,
      div_lt_div_iff (by linarith) (by linarith)]
    nlinarith [mul_pos (sub_pos.2 hyu21) (sub_pos.2 hbf)]
  have hxb1 : xb < 1 := by linarith
  have hfxb : xb < equilibrium alpha x :=
    lt_of_lt_of_le (self_lt_equilibrium ha hxb hxb1)
      (equilibrium_mono ha hxb.le hx)
  simp only [run_step, stage_step]
  by_cases hc1 : rectifying_line R1 xd xf < equilibrium alpha x
  · have hc2 : rectifying_line R2 xd xf < equilibrium alpha x :=
      lt_trans hyu21 hc1
    rw [if_pos hc1, if_pos hc2, solve_rectifying_eq hR1, solve_rectifying_eq hR2,
      div_le_div_iff hR1 hR2]
    nlinarith [mul_nonneg (sub_nonneg.2 hR12.le) (sub_nonneg.2 hfx)]
  · rw [if_neg hc1]
    by_cases hc2 : rectifying_line R2 xd xf < equilibrium alpha x
    · rw [if_pos hc2]
      have hrect : xf < solve_rectifying R2 xd (equilibrium alpha x) := by
        apply lt_of_rectifying_line_lt hR2
        rw [rectifying_line_solve hR2]
        exact hc2
      have hline1 : stripping_slope (rectifying_line R1 xd xf) xf xb * (xf - xb) =
          rectifying_line R1 xd xf - xb := by
        rw [stripping_slope]
        exact div_mul_cancel₀ _ (ne_of_gt (by linarith))
      have hstrip : (equilibrium alpha x -
          (xb - stripping_slope (rectifying_line R1 xd xf) xf xb * xb)) /
            stripping_slope (rectifying_line R1 xd xf) xf xb ≤ xf := by
        rw [div_le_iff hs1]
        push_neg at hc1
        have he : stripping_slope (rectifying_line R1 xd xf) xf xb * (xf - xb) =
            stripping_slope (rectifying_line R1 xd xf) xf xb * xf -
              stripping_slope (rectifying_line R1 xd xf) xf xb * xb := by ring
        have hcm : xf * stripping_slope (rectifying_line R1 xd xf) xf xb =
            stripping_slope (rectifying_line R1 xd xf) xf xb * xf := mul_comm _ _
        linarith
      linarith
    · rw [if_neg hc2]
      have he1 : (equilibrium alpha x -
          (xb - stripping_slope (rectifying_line R1 xd xf) xf xb * xb)) /
            stripping_slope (rectifying_line R1 xd xf) xf xb =
          xb + (equilibrium alpha x - xb) /
            stripping_slope (rectifying_line R1 xd xf) xf xb := by
        field_simp
        ring
      have he2 : (equilibrium alpha x -
          (xb - stripping_slope (rectifying_line R2 xd xf) xf xb * xb)) /
            stripping_slope (rectifying_line R2 xd xf) xf xb =
          xb + (equilibrium alpha x - xb) /
            stripping_slope (rectifying_line R2 xd xf) xf xb := by
        field_simp
        ring
      rw [he1, he2]
      have hd : (equilibrium alpha x - xb) /
          stripping_slope (rectifying_line R1 xd xf) xf xb ≤
          (equilibrium alpha x - xb) /
            stripping_slope (rectifying_line R2 xd xf) xf xb := by
        rw [div_le_div_iff hs1 hs2]
        exact mul_le_mul_of_nonneg_left hs21.le (by linarith)
      linarith

/-- A successful stripping loop is an orbit of the step map: the exit
abscissa is the (c+1)-st iterate of the seed, the loop condition failed at
every earlier iterate and fired at the c-th. -/
theorem stripLoop_orbit (alpha yu slope b R xd : ℚ) :
    ∀ (fuel : ℕ) (px py : List ℚ) (x : ℚ) (px1 py1 : List ℚ) (xr : ℚ),
      stripLoop alpha yu slope b R xd fuel px py x = some (px1, py1, xr) →
      ∃ c : ℕ, px1.length = px.length + 2 * (c + 1) ∧
        xr = (stage_step alpha yu slope b R xd)^[c + 1] x ∧
        (∀ j < c, ¬ (yu < equilibrium alpha
          ((stage_step alpha yu slope b R xd)^[j] x))) ∧
        yu < equilibrium alpha ((stage_step alpha yu slope b R xd)^[c] x) := by
  intro fuel
  induction fuel with
  | zero => intro px py x px1 py1 xr h; exact Option.noConfusion h
  | succ m ih =>
    intro px py x px1 py1 xr h
    rw [stripLoop] at h
    split at h
    · rename_i hc
      simp only [Option.some.injEq, Prod.mk.injEq] at h
      obtain ⟨hpx, -, hxr⟩ := h
      refine ⟨0, ?_, ?_, ?_, ?_⟩
      · rw [← hpx, List.length_append]; rfl
      · simp only [Function.iterate_succ_apply, Function.iterate_zero_apply]
        rw [stage_step, if_pos hc]
        exact hxr.symm
      · intro j hj; omega
      · simpa using hc
    · rename_i hc
      obtain ⟨c, hlen, hxr, hcond, hexit⟩ := ih _ _ _ _ _ _ h
      have hstep : stage_step alpha yu slope b R xd x =
          (equilibrium alpha x - b) / slope := by
        rw [stage_step, if_neg hc]
      refine ⟨c + 1, ?_, ?_, ?_, ?_⟩
      · simp only [List.length_append, List.length_cons, List.length_nil]
          at hlen ⊢
        omega
      · rw [Function.iterate_succ_apply, hstep]
        exact hxr
      · intro j hj
        cases j with
        | zero => simpa using hc
        | succ j' =>
          rw [Function.iterate_succ_apply, hstep]
          exact hcond j' (by omega)
      · rw [Function.iterate_succ_apply, hstep]
        exact hexit

/-- A successful rectifying loop is an orbit of the rectifying step: the
loop condition failed at the first e iterates of its seed and fired at the
e-th. -/
theorem rectLoop_orbit (alpha R xd : ℚ) :
    ∀ (fuel : ℕ) (px py : List ℚ) (x : ℚ) (px1 py1 : List ℚ),
      rectLoop alpha R xd fuel px py x = some (px1, py1) →
      ∃ e : ℕ, px1.length = px.length + 2 * (e + 1) ∧
        (∀ j < e, ¬ (xd < equilibrium alpha
          ((fun w => solve_rectifying R xd (equilibrium alpha w))^[j] x))) ∧
        xd < equilibrium alpha
          ((fun w => solve_rectifying R xd (equilibrium alpha w))^[e] x) := by
  intro fuel
  induction fuel with
  | zero => intro px py x px1 py1 h; exact Option.noConfusion h
  | succ m ih =>
    intro px py x px1 py1 h
    rw [rectLoop] at h
    split at h
    · rename_i hc
      simp only [Option.some.injEq, Prod.mk.injEq] at h
      obtain ⟨hpx, -⟩ := h
      refine ⟨0, ?_, ?_, ?_⟩
      · rw [← hpx, List.length_append]; rfl
      · intro j hj; omega
      · simpa using hc
    · rename_i hc
      obtain ⟨e, hlen, hcond, hexit⟩ := ih _ _ _ _ _ h
      refine ⟨e + 1, ?_, ?_, ?_⟩
      · simp only [List.length_append, List.length_cons, List.length_nil]
          at hlen ⊢
        omega
      · intro j hj
        cases j with
        | zero => simpa using hc
        | succ j' =>
          rw [Function.iterate_succ_apply]
          exact hcond j' (by omega)
      · rw [Function.iterate_succ_apply]
        exact hexit

/-- Past xf, with the applied rectifying line strictly below the
equilibrium curve at xf, the rectifying step coincides with the combined
step map and stays past xf. -/
theorem rect_phase_agree (alpha R xd yu slope b xf : ℚ) (ha : 1 < alpha)
    (hxf0 : 0 < xf) (hR : 0 < R)
    (hyr : rectifying_line R xd xf ≤ yu) (hyu : yu < equilibrium alpha xf) :
    ∀ (j : ℕ) (z : ℚ), xf < z →
      (fun w => solve_rectifying R xd (equilibrium alpha w))^[j] z =
        (stage_step alpha yu slope b R xd)^[j] z ∧
        xf < (fun w => solve_rectifying R xd (equilibrium alpha w))^[j] z := by
  intro j
  induction j with
  | zero => intro z hz; exact ⟨rfl, hz⟩
  | succ m ih =>
    intro z hz
    have hfz : yu < equilibrium alpha z :=
      lt_of_lt_of_le hyu (equilibrium_mono ha hxf0.le hz.le)
    have hstep : stage_step alpha yu slope b R xd z =
        solve_rectifying R xd (equilibrium alpha z) := by
      rw [stage_step, if_pos hfz]
    have hz' : xf < solve_rectifying R xd (equilibrium alpha z) := by
      apply lt_of_rectifying_line_lt hR
      rw [rectifying_line_solve hR]
      exact lt_of_le_of_lt hyr hfz
    obtain ⟨he, hgt⟩ := ih _ hz'
    constructor
    · rw [Function.iterate_succ_apply, Function.iterate_succ_apply, hstep]
      exact he
    · rw [Function.iterate_succ_apply]
      exact hgt

/-- As long as the stripping-loop condition has not fired, the iterates of
the step map stay inside [xb, xf]. -/
theorem strip_phase_bounds (alpha xd xb xf R : ℚ) (ha : 1 < alpha)
    (hxb : 0 < xb) (hbf : xb < xf) (hfd : xf < xd) (hxd1 : xd < 1)
    (hR : 0 < R) :
    ∀ (j : ℕ),
      (∀ i < j, ¬ (rectifying_line R xd xf < equilibrium alpha
        ((run_step alpha xd xb xf R)^[i] xb))) →
      xb ≤ (run_step alpha xd xb xf R)^[j] xb ∧
        (run_step alpha xd xb xf R)^[j] xb ≤ xf := by
  have hxb1 : xb < 1 := by linarith
  have hyu_xf : xf < rectifying_line R xd xf := self_lt_rectifying_line hR hfd
  have hslope : 0 < stripping_slope (rectifying_line R xd xf) xf xb := by
    rw [stripping_slope]
    exact div_pos (by linarith) (by linarith)
  have hline : stripping_slope (rectifying_line R xd xf) xf xb * (xf - xb) =
      rectifying_line R xd xf - xb := by
    rw [stripping_slope]
    exact div_mul_cancel₀ _ (ne_of_gt (by linarith))
  intro j
  induction j with
  | zero =>
    intro _
    simp only [Function.iterate_zero_apply]
    exact ⟨le_refl xb, hbf.le⟩
  | succ m ih =>
    intro hcond
    obtain ⟨hge, hle⟩ := ih (fun i hi => hcond i (by omega))
    have hcm := hcond m (by omega)
    push_neg at hcm
    have hfm : xb < equilibrium alpha ((run_step alpha xd xb xf R)^[m] xb) :=
      lt_of_lt_of_le (self_lt_equilibrium ha hxb hxb1)
        (equilibrium_mono ha hxb.le hge)
    set xm := (run_step alpha xd xb xf R)^[m] xb with hxm
    rw [Function.iterate_succ_apply', ← hxm, run_step, stage_step,
      if_neg (not_lt.mpr hcm)]
    constructor
    · rw [le_div_iff hslope]
      have h1 : xb * stripping_slope (rectifying_line R xd xf) xf xb =
          stripping_slope (rectifying_line R xd xf) xf xb * xb := mul_comm _ _
      linarith
    · rw [div_le_iff hslope]
      have he : stripping_slope (rectifying_line R xd xf) xf xb * (xf - xb) =
          stripping_slope (rectifying_line R xd xf) xf xb * xf -
            stripping_slope (rectifying_line R xd xf) xf xb * xb := by ring
      have hcm2 : xf * stripping_slope (rectifying_line R xd xf) xf xb =
          stripping_slope (rectifying_line R xd xf) xf xb * xf := mul_comm _ _
      linarith

/-- A completed q = 1 run with positive reflux factor is an orbit of its
step map: the returned stage count is the first index at which the
equilibrium value at the iterate exceeds xd. -/
theorem run_orbit (alpha xd xb xf R_fac xi_sol xu_sol : ℚ) (fuel : ℕ)
    (px py : List ℚ) (n Rv : ℚ)
    (ha : 1 < alpha) (hxb : 0 < xb) (hbf : xb < xf) (hfd : xf < xd)
    (hxd1 : xd < 1) (hRf : 0 < R_fac)
    (hok : plot_mccabe_thiele alpha xd xb xf 1 R_fac xi_sol xu_sol fuel =
      .ok px py n Rv) :
    ∃ T : ℕ, n = (T : ℚ) ∧
      (∀ j < T, ¬ (xd < equilibrium alpha
        ((run_step alpha xd xb xf (minimum_reflux alpha xd xf * R_fac))^[j] xb))) ∧
      xd < equilibrium alpha
        ((run_step alpha xd xb xf (minimum_reflux alpha xd xf * R_fac))^[T] xb) := by
  have hxf0 : 0 < xf := lt_trans hxb hbf
  have hxf1 : xf < 1 := lt_trans hfd hxd1
  obtain ⟨hfeas, hRf1⟩ := ok_above_min alpha xd xb xf R_fac xi_sol xu_sol fuel
    px py n Rv ha hxb hbf hfd hxd1 hRf hok
  have hRmin : 0 < minimum_reflux alpha xd xf :=
    minimum_reflux_pos ha hxf0 hxf1 hfeas
  have hR : 0 < minimum_reflux alpha xd xf * R_fac := mul_pos hRmin hRf
  have hRgt : minimum_reflux alpha xd xf < minimum_reflux alpha xd xf * R_fac := by
    nlinarith
  have h1Rmin : (0 : ℚ) < 1 + minimum_reflux alpha xd xf := by linarith
  have hyu : rectifying_line (minimum_reflux alpha xd xf * R_fac) xd xf <
      equilibrium alpha xf := by
    calc rectifying_line (minimum_reflux alpha xd xf * R_fac) xd xf
        < rectifying_line (minimum_reflux alpha xd xf) xd xf :=
          rect_anti_strict hfd hRmin hRgt
      _ = equilibrium alpha xf := rect_min_reflux_eq ha hxf0 hxf1 h1Rmin
  obtain ⟨px1, py1, xr, hs, hr, hn, -⟩ :=
    plot_ok_inversion alpha xd xb xf 1 R_fac xi_sol xu_sol fuel px py n Rv hok
  have hxi : intersection_q_and_VLE 1 xf xi_sol = xf := if_pos rfl
  have hxu : x_upper 1 xf xu_sol = xf := if_pos rfl
  rw [hxi, hxu] at hs
  rw [hxi] at hr
  obtain ⟨c, hlen1, hxr, hscond, hsexit⟩ :=
    stripLoop_orbit _ _ _ _ _ _ _ _ _ _ _ _ _ hs
  obtain ⟨e, hlen2, hrcond, hrexit⟩ := rectLoop_orbit _ _ _ _ _ _ _ _ _ hr
  have hG : stage_step alpha
      (rectifying_line (minimum_reflux alpha xd xf * R_fac) xd xf)
      (stripping_slope
        (rectifying_line (minimum_reflux alpha xd xf * R_fac) xd xf) xf xb)
      (xb - stripping_slope
          (rectifying_line (minimum_reflux alpha xd xf * R_fac) xd xf) xf xb
        * xb)
      (minimum_reflux alpha xd xf * R_fac) xd =
      run_step alpha xd xb xf (minimum_reflux alpha xd xf * R_fac) := rfl
  rw [hG] at hxr hscond hsexit
  have hxr_gt : xf < xr := by
    rw [hxr, Function.iterate_succ_apply']
    exact run_step_rect_gt_xf alpha xd xb xf _ _ hR hsexit
  have hagree : ∀ j : ℕ,
      (fun w => solve_rectifying (minimum_reflux alpha xd xf * R_fac) xd
        (equilibrium alpha w))^[j] xr =
      (run_step alpha xd xb xf (minimum_reflux alpha xd xf * R_fac))^[j] xr := by
    intro j
    have h := (rect_phase_agree alpha (minimum_reflux alpha xd xf * R_fac) xd
      (rectifying_line (minimum_reflux alpha xd xf * R_fac) xd xf)
      (stripping_slope
        (rectifying_line (minimum_reflux alpha xd xf * R_fac) xd xf) xf xb)
      (xb - stripping_slope
          (rectifying_line (minimum_reflux alpha xd xf * R_fac) xd xf) xf xb
        * xb)
      xf ha hxf0 hR (le_refl _) hyu j xr hxr_gt).1
    rw [hG] at h
    exact h
  have hyuxd : rectifying_line (minimum_reflux alpha xd xf * R_fac) xd xf
      ≤ xd := by
    calc rectifying_line (minimum_reflux alpha xd xf * R_fac) xd xf
        ≤ rectifying_line (minimum_reflux alpha xd xf * R_fac) xd xd :=
          rectifying_line_mono hR hfd.le
      _ = xd := rectifying_line_at_xd (by linarith)
  have hlen : px.length = 2 * (c + e + 2) + 1 := by
    simp only [List.length_cons, List.length_nil] at hlen1
    omega
  refine ⟨e + (c + 1), ?_, ?_, ?_⟩
  · rw [hn, hlen]
    push_cast
    ring
  · intro j hj
    by_cases hjc : j ≤ c
    · rcases lt_or_eq_of_le hjc with hjc' | hjc'
      · have h1 := hscond j hjc'
        push_neg at h1
        exact not_lt.mpr (le_trans h1 hyuxd)
      · subst hjc'
        have hb := strip_phase_bounds alpha xd xb xf
          (minimum_reflux alpha xd xf * R_fac) ha hxb hbf hfd hxd1 hR j hscond
        have h2 : equilibrium alpha
            ((run_step alpha xd xb xf
              (minimum_reflux alpha xd xf * R_fac))^[j] xb) ≤
            equilibrium alpha xf :=
          equilibrium_mono ha (le_trans hxb.le hb.1) hb.2
        exact not_lt.mpr (le_trans h2 hfeas.le)
    · push_neg at hjc
      obtain ⟨j', rfl⟩ : ∃ j', j = j' + (c + 1) := ⟨j - (c + 1), by omega⟩
      have hj' : j' < e := by omega
      rw [Function.iterate_add_apply, ← hxr, ← hagree]
      exact hrcond j' hj'
  · rw [Function.iterate_add_apply, ← hxr, ← hagree]
    exact hrexit

/-- Amended C6.  Restricted to saturated-liquid feed (q = 1) and positive
reflux factors, the claimed monotonicity holds: for two runs identical
except for the reflux factor, with 0 < R_fac1 < R_fac2 and both runs
completing, the higher-factor run returns at most as many stages.  Proved
by coupling the two staircase orbits: below xd the higher-reflux step map
is pointwise at least the lower one and monotone, so its orbit reaches the
exit condition no later. -/
theorem C6_amended (alpha xd xb xf R_fac1 R_fac2 xi_sol1 xu_sol1 xi_sol2
      xu_sol2 : ℚ) (fuel1 fuel2 : ℕ) (pxa pya pxb pyb : List ℚ)
    (n1 n2 Rv1 Rv2 : ℚ)
    (ha : 1 < alpha) (hxb : 0 < xb) (hbf : xb < xf) (hfd : xf < xd)
    (hxd1 : xd < 1) (hRf1 : 0 < R_fac1) (hRff : R_fac1 < R_fac2)
    (hok1 : plot_mccabe_thiele alpha xd xb xf 1 R_fac1 xi_sol1 xu_sol1 fuel1 =
      .ok pxa pya n1 Rv1)
    (hok2 : plot_mccabe_thiele alpha xd xb xf 1 R_fac2 xi_sol2 xu_sol2 fuel2 =
      .ok pxb pyb n2 Rv2) :
    n2 ≤ n1 := by
  have hxf0 : 0 < xf := lt_trans hxb hbf
  have hxf1 : xf < 1 := lt_trans hfd hxd1
  have hRf2 : 0 < R_fac2 := lt_trans hRf1 hRff
  obtain ⟨T1, hn1, hcond1, hexit1⟩ := run_orbit alpha xd xb xf R_fac1 xi_sol1
    xu_sol1 fuel1 pxa pya n1 Rv1 ha hxb hbf hfd hxd1 hRf1 hok1
  obtain ⟨T2, hn2, hcond2, hexit2⟩ := run_orbit alpha xd xb xf R_fac2 xi_sol2
    xu_sol2 fuel2 pxb pyb n2 Rv2 ha hxb hbf hfd hxd1 hRf2 hok2
  obtain ⟨hfeas, -⟩ := ok_above_min alpha xd xb xf R_fac1 xi_sol1 xu_sol1
    fuel1 pxa pya n1 Rv1 ha hxb hbf hfd hxd1 hRf1 hok1
  have hRmin : 0 < minimum_reflux alpha xd xf :=
    minimum_reflux_pos ha hxf0 hxf1 hfeas
  set R1 := minimum_reflux alpha xd xf * R_fac1 with hR1_def
  set R2 := minimum_reflux alpha xd xf * R_fac2 with hR2_def
  have hR1 : 0 < R1 := mul_pos hRmin hRf1
  have hR2 : 0 < R2 := mul_pos hRmin hRf2
  have hR12 : R1 < R2 := by
    rw [hR1_def, hR2_def]
    nlinarith [mul_pos hRmin (sub_pos.2 hRff)]
  have couple : ∀ j : ℕ, (∀ i < j, ¬ (xd < equilibrium alpha
      ((run_step alpha xd xb xf R1)^[i] xb))) →
      xb ≤ (run_step alpha xd xb xf R1)^[j] xb ∧
        (run_step alpha xd xb xf R1)^[j] xb ≤
          (run_step alpha xd xb xf R2)^[j] xb := by
    intro j
    induction j with
    | zero => intro _; exact ⟨le_refl xb, le_refl xb⟩
    | succ m ih =>
      intro hcond
      obtain ⟨hge, hle⟩ := ih (fun i hi => hcond i (by omega))
      have hfm : equilibrium alpha ((run_step alpha xd xb xf R1)^[m] xb) ≤ xd :=
        not_lt.mp (hcond m (by omega))
      constructor
      · rw [Function.iterate_succ_apply']
        exact run_step_ge_xb alpha xd xb xf R1 _ ha hxb hbf hfd hxd1 hR1 hge
      · rw [Function.iterate_succ_apply', Function.iterate_succ_apply']
        calc run_step alpha xd xb xf R1 ((run_step alpha xd xb xf R1)^[m] xb)
            ≤ run_step alpha xd xb xf R2
                ((run_step alpha xd xb xf R1)^[m] xb) :=
              run_step_le alpha xd xb xf R1 R2 _ ha hxb hbf hfd hxd1 hR1 hR12
                hge hfm
          _ ≤ run_step alpha xd xb xf R2
                ((run_step alpha xd xb xf R2)^[m] xb) :=
              run_step_mono alpha xd xb xf R2 _ _ ha hxb hbf hfd hR2
                (le_trans hxb.le hge) hle
  have hT : T2 ≤ T1 := by
    by_contra hc
    push_neg at hc
    obtain ⟨hge, hle⟩ := couple T1 (fun i hi => hcond1 i hi)
    have h1 : xd < equilibrium alpha ((run_step alpha xd xb xf R2)^[T1] xb) :=
      lt_of_lt_of_le hexit1 (equilibrium_mono ha (le_trans hxb.le hge) hle)
    exact (hcond2 T1 hc) h1
  rw [hn1, hn2]
  exact_mod_cast hT

set_option maxHeartbeats 2000000 in
/-- Full evaluation of the counterexample design with reflux factor 16:
the applied reflux is 5 and the staircase again needs two stages. -/
theorem factor16_run_eq :
    plot_mccabe_thiele 3 (3/4) (1/4) (2/5) 1 16 0 0 10 =
      .ok [1/4, 1/4, 9/20, 9/20, 267/380, 267/380, 3/4]
        [1/4, 1/2, 1/2, 27/38, 27/38, 3/4, 3/4] 2 5 := by
  norm_num [plot_mccabe_thiele, stripLoop, rectLoop, equilibrium,
    intersection_q_and_VLE, minimum_reflux, rectifying_line, solve_rectifying,
    x_upper, stripping_slope, List.dropLast_concat]

/-- Witness for the amended C6: the design alpha = 3, xd = 3/4, xb = 1/4,
xf = 2/5, q = 1 with reflux factors 8 < 16, both runs completing with two
stages. -/
theorem C6_witness : (0 : ℚ) < 8 ∧ (8 : ℚ) < 16 ∧ (2 : ℚ) ≤ 2 :=
  ⟨by norm_num, by norm_num,
    C6_amended 3 (3/4) (1/4) (2/5) 8 16 0 0 0 0 10 10
      [1/4, 1/4, 2/5, 2/5, 19/30, 19/30, 3/4]
      [1/4, 1/2, 1/2, 2/3, 2/3, 3/4, 3/4]
      [1/4, 1/4, 9/20, 9/20, 267/380, 267/380, 3/4]
      [1/4, 1/2, 1/2, 27/38, 27/38, 3/4, 3/4]
      2 2 (5/2) 5 (by norm_num) (by norm_num) (by norm_num) (by norm_num)
      (by norm_num) (by norm_num) (by norm_num)
      high_factor_run_eq factor16_run_eq⟩

end MT
